import Mathlib

/-!
Verification development for an IPFS merkle-DAG block decoder written in
TypeScript.  The embedding models the wire codec in src/src/protobuf.ts
(the canonical revision, whose varint reader is the inline readVarInt
closure) and, in the V2 namespace, the revision in src/unnamed/part_002
(which delegates to a separate varint module and additionally supports
encoding).  Byte buffers are lists of naturals; a read through readByte
applies the Uint8Array semantics (out-of-range reads yield the JS
undefined, which the bit masks coerce to 0, and stored values are bytes
below 256).  Failures thrown by the JS code become constructors of Err.
-/

/-- Failure taxonomy of the decoder.  Each constructor corresponds to one
thrown error message in the source: bufferOverrun to "buffer overrun",
unknownField to "unknown field", unsupportedWireType to the wire-type
branch of "unsupported type", unsupportedType to the UnixFS payload
"unsupported type", badData to "bad Data", missingLinksOrData to
"Missing links or data", unsupportedHash to "unsupported hash",
hashMismatch to "hash mismatch", and typeError to the implicit JS
TypeError raised when reading a property of undefined. -/
inductive Err where
  | bufferOverrun
  | unknownField
  | unsupportedWireType
  | unsupportedType
  | badData
  | missingLinksOrData
  | unsupportedHash
  | hashMismatch
  | typeError
deriving DecidableEq, Repr

/-- A decoded wire value: JS pushes either a number (varint field) or a
Uint8Array (length-delimited field) into the temporary result. -/
inductive WireValue where
  | nat (n : Nat)
  | bytes (bs : List Nat)
deriving DecidableEq, Repr

/-- A collapsed field value in the final parse result: the JS code keeps
the whole occurrence array for repeated fields and the first element
otherwise. -/
inductive ResultValue where
  | one (v : WireValue)
  | many (vs : List WireValue)
deriving DecidableEq, Repr

/-- Schema of src/src/protobuf.ts: an ordered list of field names
(position i is protobuf field number i+1) plus the set of keys marked
repeated. -/
structure SchemaDefinition where
  names : List String
  repeatedKeys : List String
deriving DecidableEq, Repr

/-- The temporary result object of ProtoBuf.parse: insertion-ordered map
from field name to the ordered list of decoded occurrences. -/
abbrev TempResult := List (String × List WireValue)

/-- A Uint8Array element access: in range it returns the stored byte
(always below 256), out of range JS yields undefined which the bit masks
coerce to 0. -/
def readByte (d : List Nat) (i : Nat) : Nat :=
  d.getD i 0 % 256

/-- Modelled from the spec: the varint module (src/varint.ts) imported by
the part_002 revision is not among the sources, so encoding follows the
spec of VarintCodec: emit 7-bit groups of n, least significant group
first, setting the continuation bit on every byte except the last.
The fuel argument only bounds recursion depth; n + 1 always suffices. -/
def Varint.encodeAux : Nat → Nat → List Nat
  | 0, _ => []
  | fuel + 1, n => if n < 128 then [n] else (n % 128 + 128) :: Varint.encodeAux fuel (n / 128)

/-- Modelled from the spec: varint encoding of a non-negative integer. -/
def Varint.encode (n : Nat) : List Nat :=
  Varint.encodeAux (n + 1) n

/-- The readVarInt closure of ProtoBuf.parse in src/src/protobuf.ts,
reading at index i of d: collect the low 7 bits of each byte while the
continuation bit is set, throwing "buffer overrun" when a continuation
requests the byte at index d.length, and fold the groups into a value
(first byte least significant).  Returns the value and the index just
past the last byte read.  The fuel argument only bounds recursion depth;
d.length + 1 always suffices. -/
def readVarIntAux (d : List Nat) : Nat → Nat → Except Err (Nat × Nat)
  | 0, _ => .error .bufferOverrun
  | fuel + 1, i =>
    let b := readByte d i
    if 128 ≤ b then
      if i + 1 = d.length then .error .bufferOverrun
      else
        match readVarIntAux d fuel (i + 1) with
        | .error e => .error e
        | .ok (v, o) => .ok (b % 128 + 128 * v, o)
    else .ok (b % 128, i + 1)

/-- readVarInt of src/src/protobuf.ts started at index i, with canonical
fuel. -/
def readVarIntFrom (d : List Nat) (i : Nat) : Except Err (Nat × Nat) :=
  readVarIntAux d (d.length + 1) i

/-- Modelled from the spec: the decode entry of the missing varint module
(src/varint.ts), same algorithm as readVarInt, returning the value and
the number of bytes consumed. -/
def Varint.decode (d : List Nat) (i : Nat) : Except Err (Nat × Nat) :=
  match readVarIntFrom d i with
  | .error e => .error e
  | .ok (v, o) => .ok (v, o - i)

/-- The field-name lookup of ProtoBuf.parse: schema.names at index
(v >>> 3) - 1, where the unsigned shift first truncates v to 32 bits.
An out-of-range index, the index -1 (field number 0) and the falsy empty
string all make the tag undefined or falsy, which the source reports as
an unknown field. -/
def tagOf (names : List String) (v : Nat) : Option String :=
  let fn := v % 4294967296 / 8
  if fn = 0 then none
  else
    match names.get? (fn - 1) with
    | none => none
    | some t => if t = "" then none else some t

/-- The JS statements creating tempResult entries: if the tag has no
entry yet, create an empty array, then push the value.  Appends to the
entry of the first matching key, or adds a new entry at the end. -/
def pushAcc : TempResult → String → WireValue → TempResult
  | [], k, v => [(k, [v])]
  | (k', vs) :: t, k, v =>
    if k = k' then (k', vs ++ [v]) :: t else (k', vs) :: pushAcc t k v

/-- The final result assembly of ProtoBuf.parse: a repeated field keeps
its occurrence array, any other field keeps the first occurrence. -/
def collapseVal (schema : SchemaDefinition) (k : String) (vs : List WireValue) : ResultValue :=
  if schema.repeatedKeys.contains k then .many vs else .one (vs.headD (.nat 0))

/-- Collapse every tempResult entry, preserving insertion order. -/
def collapse (schema : SchemaDefinition) (acc : TempResult) : List (String × ResultValue) :=
  acc.map (fun p => (p.1, collapseVal schema p.1 p.2))

/-- The while loop of ProtoBuf.parse in src/src/protobuf.ts.  Each
iteration reads a tag word, resolves the field name, and dispatches on
the wire type (0 varint, 2 length-delimited, anything else unsupported).
The length-delimited branch decodes the length after the cursor has
advanced past the tag and the length varint, then checks
cursor + length against the buffer length before slicing.  The fuel
argument only bounds the number of iterations; d.length + 1 always
suffices because every iteration advances the cursor. -/
def ProtoBuf.parseLoop (schema : SchemaDefinition) (d : List Nat) :
    Nat → Nat → TempResult → Except Err (TempResult × Nat)
  | 0, _, _ => .error .bufferOverrun
  | fuel + 1, offset, acc =>
    if d.length ≤ offset then .ok (acc, offset)
    else
      match readVarIntFrom d offset with
      | .error e => .error e
      | .ok (v, o1) =>
        match tagOf schema.names v with
        | none => .error .unknownField
        | some tag =>
          if v % 8 = 0 then
            match readVarIntFrom d o1 with
            | .error e => .error e
            | .ok (val, o2) => ProtoBuf.parseLoop schema d fuel o2 (pushAcc acc tag (.nat val))
          else if v % 8 = 2 then
            match readVarIntFrom d o1 with
            | .error e => .error e
            | .ok (len, o2) =>
              if d.length < o2 + len then .error .bufferOverrun
              else
                ProtoBuf.parseLoop schema d fuel (o2 + len)
                  (pushAcc acc tag (.bytes ((d.drop o2).take len)))
          else .error .unsupportedWireType

/-- The parse loop with its canonical fuel. -/
def ProtoBuf.runLoop (schema : SchemaDefinition) (d : List Nat) (offset : Nat) (acc : TempResult) :
    Except Err (TempResult × Nat) :=
  ProtoBuf.parseLoop schema d (d.length + 1) offset acc

/-- ProtoBuf.parse of src/src/protobuf.ts: run the loop from offset 0
with an empty temporary result, then collapse. -/
def ProtoBuf.parse (d : List Nat) (schema : SchemaDefinition) :
    Except Err (List (String × ResultValue)) :=
  match ProtoBuf.runLoop schema d 0 [] with
  | .error e => .error e
  | .ok (acc, _) => .ok (collapse schema acc)

/-- The PBNODE schema of src/src/protobuf.ts. -/
def ProtoBuf.pbnode : SchemaDefinition :=
  { names := ["data", "links"], repeatedKeys := ["links"] }

/-- The PBLINK schema of src/src/protobuf.ts. -/
def ProtoBuf.pblink : SchemaDefinition :=
  { names := ["hash", "n", "ts"], repeatedKeys := [] }

/-- The UNIXFS schema of src/src/protobuf.ts. -/
def ProtoBuf.unixfs : SchemaDefinition :=
  { names := ["type", "data", "fs", "bs", "ht", "fo"], repeatedKeys := [] }

/-- PBData.parse of src/src/protobuf.ts.  Throws unless the decoded type
field is the number 2 (File); a falsy data field (absent, or the number
0) resolves to the empty byte sequence; a truthy non-Uint8Array data
value throws bad Data; otherwise the data bytes are returned. -/
def PBData.parse (d : List Nat) : Except Err (List Nat) :=
  match ProtoBuf.parse d ProtoBuf.unixfs with
  | .error e => .error e
  | .ok r =>
    if r.lookup "type" ≠ some (.one (.nat 2)) then .error .unsupportedType
    else
      match r.lookup "data" with
      | none => .ok []
      | some (.one (.nat 0)) => .ok []
      | some (.one (.nat _)) => .error .badData
      | some (.one (.bytes bs)) => .ok bs
      | some (.many _) => .error .badData

/-- PBLink.parse of src/src/protobuf.ts.  The network fetch by base58
multihash is an external collaborator and enters as the parameters
getBlock (ProtoBuf.get) and b58encode.  An absent hash field makes the
JS length read throw a TypeError; a hash whose length is not 34 (a
number has undefined length) throws unsupported hash. -/
def PBLink.parse (getBlock : String → Except Err (List Nat))
    (b58encode : List Nat → String) (d : List Nat) : Except Err (List Nat) :=
  match ProtoBuf.parse d ProtoBuf.pblink with
  | .error e => .error e
  | .ok r =>
    match r.lookup "hash" with
    | none => .error .typeError
    | some (.one (.bytes bs)) =>
      if bs.length = 34 then getBlock (b58encode bs) else .error .unsupportedHash
    | some _ => .error .unsupportedHash

/-- PBNode.parse of src/src/protobuf.ts.  Link resolution recurses into
the network, so it enters as the parameter resolveLink (PBLink.parse on
each link value); Promise.all preserves the order of the link list, which
the List.mapM sequencing models.  If a links entry exists the node
resolves to the concatenation of the resolved blocks; otherwise a data
entry that is a Uint8Array is decoded as a UnixFS payload; otherwise the
node throws Missing links or data. -/
def PBNode.parse (resolveLink : WireValue → Except Err (List Nat)) (d : List Nat) :
    Except Err (List Nat) :=
  match ProtoBuf.parse d ProtoBuf.pbnode with
  | .error e => .error e
  | .ok r =>
    match r.lookup "links" with
    | some (.many ls) =>
      match ls.mapM resolveLink with
      | .error e => .error e
      | .ok blocks => .ok blocks.flatten
    | _ =>
      match r.lookup "data" with
      | some (.one (.bytes bs)) => PBData.parse bs
      | _ => .error .missingLinksOrData

/-- One lowercase hex digit, as produced by the ethers hex utilities. -/
def hexChar (n : Nat) : Char :=
  if n < 10 then Char.ofNat (48 + n) else Char.ofNat (87 + n)

/-- The ethers hexlify of a byte sequence: the characters of the 0x
prefixed lowercase hex string (a JS string is its character sequence). -/
def hexlify (bs : List Nat) : List Char :=
  '0' :: 'x' :: bs.flatMap (fun b => [hexChar (b / 16), hexChar (b % 16)])

/-- ProtoBuf.get of src/src/protobuf.ts.  The HTTP fetch, the SHA-256
primitive and the base58 decoder are external collaborators passed as
parameters; sha256 yields the 32 digest bytes that ethers then renders
in hex, per the spec of the external interface.  The body is fetched,
its digest is compared in hex form with the multihash digest (the
base58 decode with the 2-byte multihash prefix stripped), a mismatch
throws hash mismatch, and only then is the body decoded as a DAG node
(the parameter parseNode stands for PBNode.parse). -/
def ProtoBuf.get (fetch : String → Except Err (List Nat))
    (sha256 : List Nat → List Nat) (b58decode : String → List Nat)
    (parseNode : List Nat → Except Err (List Nat)) (multihash : String) :
    Except Err (List Nat) :=
  match fetch multihash with
  | .error e => .error e
  | .ok body =>
    if hexlify (sha256 body) ≠ hexlify ((b58decode multihash).drop 2) then
      .error .hashMismatch
    else parseNode body

/-- Schema of the part_002 revision: it additionally records the expected
wire type per field, although its parse loop never consults that array
(the wire type is taken from the tag word). -/
structure V2.SchemaDefinition where
  names : List String
  types : List Nat
  repeatedKeys : List String
deriving DecidableEq, Repr

/-- The PBNODE schema of part_002. -/
def V2.pbnode : V2.SchemaDefinition :=
  { names := ["data", "links"], types := [0, 2], repeatedKeys := ["links"] }

/-- The PBLINK schema of part_002. -/
def V2.pblink : V2.SchemaDefinition :=
  { names := ["hash", "name", "tsize"], types := [2, 2, 0], repeatedKeys := [] }

/-- The UNIXFS schema of part_002. -/
def V2.unixfs : V2.SchemaDefinition :=
  { names := ["type", "data", "filesize", "blocksize", "hashtype", "fanout"]
    types := [0, 2, 0, 0, 0, 0], repeatedKeys := [] }

/-- The while loop of ProtoBuf.parse in the part_002 revision.  It calls
the varint module with an explicit offset and adds the consumed length to
the cursor.  Unlike the canonical revision, the length-delimited branch
checks cursor + length against the buffer length while the cursor still
sits on the length varint, and only afterwards advances past it, so the
slice itself is not covered by the check.  The fuel argument only bounds
the number of iterations; d.length + 1 always suffices. -/
def V2.parseLoop (schema : V2.SchemaDefinition) (d : List Nat) :
    Nat → Nat → TempResult → Except Err (TempResult × Nat)
  | 0, _, _ => .error .bufferOverrun
  | fuel + 1, offset, acc =>
    if d.length ≤ offset then .ok (acc, offset)
    else
      match Varint.decode d offset with
      | .error e => .error e
      | .ok (v, c) =>
        match tagOf schema.names v with
        | none => .error .unknownField
        | some tag =>
          if v % 8 = 0 then
            match Varint.decode d (offset + c) with
            | .error e => .error e
            | .ok (val, c2) =>
              V2.parseLoop schema d fuel (offset + c + c2) (pushAcc acc tag (.nat val))
          else if v % 8 = 2 then
            match Varint.decode d (offset + c) with
            | .error e => .error e
            | .ok (len, c2) =>
              if d.length < offset + c + len then .error .bufferOverrun
              else
                V2.parseLoop schema d fuel (offset + c + c2 + len)
                  (pushAcc acc tag (.bytes ((d.drop (offset + c + c2)).take len)))
          else .error .unsupportedWireType

/-- The part_002 parse loop with its canonical fuel. -/
def V2.runLoop (schema : V2.SchemaDefinition) (d : List Nat) (offset : Nat) (acc : TempResult) :
    Except Err (TempResult × Nat) :=
  V2.parseLoop schema d (d.length + 1) offset acc

/-- Collapse for the part_002 schema type (same logic as the canonical
revision). -/
def V2.collapse (schema : V2.SchemaDefinition) (acc : TempResult) :
    List (String × ResultValue) :=
  acc.map (fun p =>
    (p.1, if schema.repeatedKeys.contains p.1 then ResultValue.many p.2
          else ResultValue.one (p.2.headD (.nat 0))))

/-- ProtoBuf.parse of the part_002 revision. -/
def V2.ProtoBuf.parse (d : List Nat) (schema : V2.SchemaDefinition) :
    Except Err (List (String × ResultValue)) :=
  match V2.runLoop schema d 0 [] with
  | .error e => .error e
  | .ok (acc, _) => .ok (V2.collapse schema acc)

/-- PBData.encode of part_002: emit the type field (varint, value
UnixFsType.File which is 2), the data field (length-delimited) and the
filesize field, whose pushed value is the same varint as the data length.
Field numbers come from the position of the field name in the schema and
tag words are fieldNumber shifted left by 3 plus the wire type. -/
def V2.PBData.encode (data : List Nat) : List Nat :=
  let tag1 := V2.unixfs.names.indexOf "type" + 1
  let encodedTag1 := Varint.encode ((tag1 <<< 3) + 0)
  let typeVal := Varint.encode 2
  let tag2 := V2.unixfs.names.indexOf "data" + 1
  let encodedTag2 := Varint.encode ((tag2 <<< 3) + 2)
  let size := Varint.encode data.length
  let tag3 := V2.unixfs.names.indexOf "filesize" + 1
  let encodedTag3 := Varint.encode ((tag3 <<< 3) + 0)
  List.flatten [encodedTag1, typeVal, encodedTag2, size, data, encodedTag3, size]

/-- PBNode.encode of part_002: with a payload present, emit the data
field tag (length-delimited), the length of the UnixFS encoding of the
payload, then that encoding; with no payload, the empty encoding. -/
def V2.PBNode.encode (data : Option (List Nat)) : List Nat :=
  match data with
  | none => []
  | some payload =>
    let tag := V2.pbnode.names.indexOf "data" + 1
    let encodedTag := Varint.encode ((tag <<< 3) + 2)
    let encodedData := V2.PBData.encode payload
    let size := Varint.encode encodedData.length
    List.flatten [encodedTag, size, encodedData]

/-- PBData.parse of part_002: same branch structure as the canonical
revision, against the part_002 UNIXFS schema. -/
def V2.PBData.parse (d : List Nat) : Except Err (List Nat) :=
  match V2.ProtoBuf.parse d V2.unixfs with
  | .error e => .error e
  | .ok r =>
    if r.lookup "type" ≠ some (.one (.nat 2)) then .error .unsupportedType
    else
      match r.lookup "data" with
      | none => .ok []
      | some (.one (.nat 0)) => .ok []
      | some (.one (.nat _)) => .error .badData
      | some (.one (.bytes bs)) => .ok bs
      | some (.many _) => .error .badData

/-- PBNode.parse of part_002: same branch structure as the canonical
revision, against the part_002 PBNODE schema, with link resolution as an
external parameter. -/
def V2.PBNode.parse (resolveLink : WireValue → Except Err (List Nat)) (d : List Nat) :
    Except Err (List Nat) :=
  match V2.ProtoBuf.parse d V2.pbnode with
  | .error e => .error e
  | .ok r =>
    match r.lookup "links" with
    | some (.many ls) =>
      match ls.mapM resolveLink with
      | .error e => .error e
      | .ok blocks => .ok blocks.flatten
    | _ =>
      match r.lookup "data" with
      | some (.one (.bytes bs)) => V2.PBData.parse bs
      | _ => .error .missingLinksOrData

/-- Push a whole sequence of decoded records, in buffer order, into a
temporary result.  The parse loop is exactly such a push sequence, which
lets theorems about duplicated fields track where each occurrence ends
up. -/
def mergePairs (acc : TempResult) : List (String × WireValue) → TempResult
  | [] => acc
  | (k, v) :: t => mergePairs (pushAcc acc k v) t

/-- The values carried by the records of one field name, in buffer
order. -/
def valuesOf (k : String) : List (String × WireValue) → List WireValue
  | [] => []
  | (k', v) :: t => if k = k' then v :: valuesOf k t else valuesOf k t

/-- The fuel of the encoding helper is irrelevant once it exceeds the
value being encoded. -/
theorem Varint.encodeAux_mono :
    ∀ fuel n fuel', n < fuel → n < fuel' → Varint.encodeAux fuel n = Varint.encodeAux fuel' n := by
  intro fuel
  induction fuel with
  | zero => intro n fuel' h; omega
  | succ g ih =>
    intro n fuel' h h'
    cases fuel' with
    | zero => omega
    | succ g' =>
      simp only [Varint.encodeAux]
      by_cases hn : n < 128
      · simp [hn]
      · simp only [if_neg hn]
        have hlt : n / 128 < n := Nat.div_lt_self (by omega) (by norm_num)
        rw [ih (n / 128) g' (by omega) (by omega)]

/-- Unfolding equation for the varint encoder. -/
theorem Varint.encode_eq (n : Nat) :
    Varint.encode n = if n < 128 then [n] else (n % 128 + 128) :: Varint.encode (n / 128) := by
  by_cases hn : n < 128
  · simp [Varint.encode, Varint.encodeAux, hn]
  · have hlt : n / 128 < n := Nat.div_lt_self (by omega) (by norm_num)
    simp only [Varint.encode, Varint.encodeAux, if_neg hn]
    rw [Varint.encodeAux_mono n (n / 128) (n / 128 + 1) (by omega) (by omega)]
    simp only [Varint.encodeAux]

/-- The encoding of a small value is the single byte holding it. -/
theorem Varint.encode_lt (n : Nat) (h : n < 128) : Varint.encode n = [n] := by
  rw [Varint.encode_eq, if_pos h]

/-- Varint encodings are never empty. -/
theorem Varint.encode_ne_nil (n : Nat) : Varint.encode n ≠ [] := by
  rw [Varint.encode_eq]
  by_cases hn : n < 128 <;> simp [hn]

/-- Varint encodings have positive length. -/
theorem Varint.encode_length_pos (n : Nat) : 0 < (Varint.encode n).length :=
  List.length_pos.mpr (Varint.encode_ne_nil n)

/-- A byte read resolves through the optional indexing of the list. -/
theorem readByte_eq_getElem? (d : List Nat) (i : Nat) : readByte d i = (d[i]?.getD 0) % 256 := by
  simp [readByte, List.getD_eq_getElem?_getD]

/-- An out-of-range byte read yields 0 (the JS undefined under a bit
mask). -/
theorem readByte_out (d : List Nat) (i : Nat) (h : d.length ≤ i) : readByte d i = 0 := by
  unfold readByte
  rw [List.getD_eq_default d 0 h]

/-- A continuation bit can only be observed on an in-range byte. -/
theorem readByte_lt_length (d : List Nat) (i : Nat) (h : 128 ≤ readByte d i) : i < d.length := by
  by_contra hc
  rw [readByte_out d i (by omega)] at h
  omega

/-- The varint reader always consumes at least one byte. -/
theorem readVarIntAux_consumes (d : List Nat) :
    ∀ fuel i v o, readVarIntAux d fuel i = .ok (v, o) → i < o := by
  intro fuel
  induction fuel with
  | zero => intro i v o h; simp [readVarIntAux] at h
  | succ g ih =>
    intro i v o h
    simp only [readVarIntAux] at h
    by_cases hb : 128 ≤ readByte d i
    · rw [if_pos hb] at h
      by_cases he : i + 1 = d.length
      · rw [if_pos he] at h; exact absurd h (by simp)
      · rw [if_neg he] at h
        cases hr : readVarIntAux d g (i + 1) with
        | error e => rw [hr] at h; exact absurd h (by simp)
        | ok p =>
          rw [hr] at h
          obtain ⟨v', o'⟩ := p
          simp at h
          have := ih (i + 1) v' o' hr
          omega
    · rw [if_neg hb] at h
      simp at h
      omega

/-- A varint that starts in range and decodes successfully ends within
the buffer. -/
theorem readVarIntAux_le_length (d : List Nat) :
    ∀ fuel i v o, i < d.length → readVarIntAux d fuel i = .ok (v, o) → o ≤ d.length := by
  intro fuel
  induction fuel with
  | zero => intro i v o _ h; simp [readVarIntAux] at h
  | succ g ih =>
    intro i v o hi h
    simp only [readVarIntAux] at h
    by_cases hb : 128 ≤ readByte d i
    · rw [if_pos hb] at h
      by_cases he : i + 1 = d.length
      · rw [if_pos he] at h; exact absurd h (by simp)
      · rw [if_neg he] at h
        cases hr : readVarIntAux d g (i + 1) with
        | error e => rw [hr] at h; exact absurd h (by simp)
        | ok p =>
          rw [hr] at h
          obtain ⟨v', o'⟩ := p
          simp at h
          exact h.2 ▸ ih (i + 1) v' o' (by omega) hr
    · rw [if_neg hb] at h
      simp at h
      omega

/-- The fuel of the varint reader is irrelevant once it exceeds the
number of bytes remaining. -/
theorem readVarIntAux_mono (d : List Nat) :
    ∀ fuel i fuel', d.length - i < fuel → d.length - i < fuel' →
      readVarIntAux d fuel i = readVarIntAux d fuel' i := by
  intro fuel
  induction fuel with
  | zero => intro i fuel' h; omega
  | succ g ih =>
    intro i fuel' h h'
    cases fuel' with
    | zero => omega
    | succ g' =>
      simp only [readVarIntAux]
      by_cases hb : 128 ≤ readByte d i
      · have hi : i < d.length := readByte_lt_length d i hb
        simp only [if_pos hb]
        by_cases he : i + 1 = d.length
        · simp only [if_pos he]
        · simp only [if_neg he]
          rw [ih (i + 1) g' (by omega) (by omega)]
      · simp only [if_neg hb]

/-- A successful varint read is stable under extra fuel. -/
theorem readVarIntAux_ok_mono (d : List Nat) :
    ∀ fuel i v o fuel', readVarIntAux d fuel i = .ok (v, o) → fuel ≤ fuel' →
      readVarIntAux d fuel' i = .ok (v, o) := by
  intro fuel
  induction fuel with
  | zero => intro i v o fuel' h; simp [readVarIntAux] at h
  | succ g ih =>
    intro i v o fuel' h hle
    cases fuel' with
    | zero => omega
    | succ g' =>
      simp only [readVarIntAux] at h ⊢
      by_cases hb : 128 ≤ readByte d i
      · rw [if_pos hb] at h ⊢
        by_cases he : i + 1 = d.length
        · rw [if_pos he] at h ⊢; exact h
        · rw [if_neg he] at h ⊢
          cases hr : readVarIntAux d g (i + 1) with
          | error e => rw [hr] at h; exact absurd h (by simp)
          | ok p =>
            rw [hr] at h
            obtain ⟨v', o'⟩ := p
            rw [ih (i + 1) v' o' g' hr (by omega)]
            exact h
      · rw [if_neg hb] at h ⊢
        exact h

/-- A dropped suffix starting with a byte pins down the byte read at that
index. -/
theorem readByte_of_drop (d : List Nat) (i c : Nat) (rest : List Nat)
    (h : d.drop i = c :: rest) : readByte d i = c % 256 := by
  have h0 : d[i]? = some c := by
    have hx := List.getElem?_drop d i 0
    rw [h] at hx
    simpa using hx.symm
  rw [readByte_eq_getElem?, h0]
  rfl

/-- A nonempty dropped suffix means the index is in range. -/
theorem drop_cons_lt_length (d : List Nat) (i c : Nat) (rest : List Nat)
    (h : d.drop i = c :: rest) : i < d.length := by
  by_contra hc
  rw [List.drop_eq_nil_of_le (by omega)] at h
  exact absurd h (by simp)

/-- Advancing by one strips the head of the dropped suffix. -/
theorem drop_succ_of_drop (d : List Nat) (i c : Nat) (rest : List Nat)
    (h : d.drop i = c :: rest) : d.drop (i + 1) = rest := by
  have hx := List.drop_drop 1 i d
  rw [h] at hx
  simpa using hx.symm

/-- The varint reader applied to an encoded value inside a buffer yields
that value and stops right after its encoding. -/
theorem readVarIntAux_encode (n : Nat) :
    ∀ fuel d i rest, d.drop i = Varint.encode n ++ rest →
      (Varint.encode n).length ≤ fuel →
      readVarIntAux d fuel i = .ok (n, i + (Varint.encode n).length) := by
  induction n using Nat.strong_induction_on with
  | _ n ih =>
    intro fuel d i rest hdrop hfuel
    by_cases hn : n < 128
    · rw [Varint.encode_lt n hn] at hdrop hfuel ⊢
      obtain ⟨g, rfl⟩ : ∃ g, fuel = g + 1 := ⟨fuel - 1, by simp at hfuel; omega⟩
      have hb : readByte d i = n := by
        have hx := readByte_of_drop d i n rest (by simpa using hdrop)
        rwa [Nat.mod_eq_of_lt (by omega)] at hx
      simp only [readVarIntAux, hb]
      rw [if_neg (by omega : ¬ 128 ≤ n)]
      rw [Nat.mod_eq_of_lt (by omega : n < 128)]
      simp
    · have hlen1 : (Varint.encode n).length = (Varint.encode (n / 128)).length + 1 := by
        rw [Varint.encode_eq n, if_neg hn]
        simp
      have hdrop' : d.drop i = (n % 128 + 128) :: (Varint.encode (n / 128) ++ rest) := by
        rw [hdrop, Varint.encode_eq n, if_neg hn]
        simp
      obtain ⟨g, rfl⟩ : ∃ g, fuel = g + 1 := ⟨fuel - 1, by omega⟩
      have hb : readByte d i = n % 128 + 128 := by
        have hx := readByte_of_drop d i (n % 128 + 128) _ hdrop'
        rwa [Nat.mod_eq_of_lt (by omega)] at hx
      have hrest : d.drop (i + 1) = Varint.encode (n / 128) ++ rest :=
        drop_succ_of_drop d i _ _ hdrop'
      have hi : i < d.length := drop_cons_lt_length d i _ _ hdrop'
      have hne : i + 1 < d.length := by
        have hlend : (d.drop (i + 1)).length = d.length - (i + 1) := List.length_drop _ _
        rw [hrest, List.length_append] at hlend
        have := Varint.encode_length_pos (n / 128)
        omega
      have hrec := ih (n / 128) (Nat.div_lt_self (by omega) (by norm_num)) g d (i + 1) rest
        hrest (by omega)
      simp only [readVarIntAux, hb]
      rw [if_pos (by omega : 128 ≤ n % 128 + 128), if_neg (by omega : ¬ i + 1 = d.length), hrec]
      have hval : (n % 128 + 128) % 128 + 128 * (n / 128) = n := by
        rw [Nat.add_mod_right]
        omega
      simp only [Except.ok.injEq, Prod.mk.injEq]
      constructor
      · omega
      · omega

/-- readVarInt applied at an offset whose suffix is an encoded value. -/
theorem readVarIntFrom_encode (n : Nat) (d : List Nat) (i : Nat) (rest : List Nat)
    (hdrop : d.drop i = Varint.encode n ++ rest) :
    readVarIntFrom d i = .ok (n, i + (Varint.encode n).length) := by
  apply readVarIntAux_encode n (d.length + 1) d i rest hdrop
  have : (d.drop i).length = d.length - i := List.length_drop _ _
  rw [hdrop, List.length_append] at this
  omega

/-- readVarInt consumes at least one byte. -/
theorem readVarIntFrom_consumes (d : List Nat) (i v o : Nat)
    (h : readVarIntFrom d i = .ok (v, o)) : i < o :=
  readVarIntAux_consumes d (d.length + 1) i v o h

/-- A successful readVarInt started in range ends within the buffer. -/
theorem readVarIntFrom_le_length (d : List Nat) (i v o : Nat) (hi : i < d.length)
    (h : readVarIntFrom d i = .ok (v, o)) : o ≤ d.length :=
  readVarIntAux_le_length d (d.length + 1) i v o hi h

/-- readVarInt started at or past the end of the buffer reads the JS
undefined as 0 and fabricates the value 0, consuming one phantom byte. -/
theorem readVarIntFrom_past_end (d : List Nat) (i : Nat) (h : d.length ≤ i) :
    readVarIntFrom d i = .ok (0, i + 1) := by
  unfold readVarIntFrom
  have : d.length + 1 = d.length + 1 := rfl
  simp only [readVarIntAux, readByte_out d i h]
  norm_num

/-- A continuation bit on the final byte of the buffer makes readVarInt
throw buffer overrun. -/
theorem readVarIntFrom_final_cont (d : List Nat) (i : Nat) (hb : 128 ≤ readByte d i)
    (he : i + 1 = d.length) : readVarIntFrom d i = .error .bufferOverrun := by
  unfold readVarIntFrom
  simp only [readVarIntAux]
  rw [if_pos hb, if_pos he]

/-- A successful readVarInt ending within a prefix is unchanged when the
buffer is extended on the right. -/
theorem readVarIntAux_append (b1 b2 : List Nat) :
    ∀ fuel i v o, readVarIntAux b1 fuel i = .ok (v, o) → o ≤ b1.length →
      readVarIntAux (b1 ++ b2) fuel i = .ok (v, o) := by
  intro fuel
  induction fuel with
  | zero => intro i v o h; simp [readVarIntAux] at h
  | succ g ih =>
    intro i v o h ho
    have hio : i < o := readVarIntAux_consumes b1 (g + 1) i v o h
    have hi : i < b1.length := by omega
    have hbyte : readByte (b1 ++ b2) i = readByte b1 i := by
      rw [readByte_eq_getElem?, readByte_eq_getElem?, List.getElem?_append_left hi]
    simp only [readVarIntAux, hbyte] at h ⊢
    by_cases hb : 128 ≤ readByte b1 i
    · rw [if_pos hb] at h ⊢
      by_cases he : i + 1 = b1.length
      · rw [if_pos he] at h; exact absurd h (by simp)
      · rw [if_neg he] at h
        have hne2 : ¬ i + 1 = (b1 ++ b2).length := by
          rw [List.length_append]
          omega
        rw [if_neg hne2]
        cases hr : readVarIntAux b1 g (i + 1) with
        | error e => rw [hr] at h; exact absurd h (by simp)
        | ok p =>
          rw [hr] at h
          obtain ⟨v', o'⟩ := p
          simp only [Except.ok.injEq, Prod.mk.injEq] at h
          rw [ih (i + 1) v' o' hr (by omega)]
          simp [h.1, h.2]
    · rw [if_neg hb] at h ⊢
      exact h

/-- Wrapper form of the right-extension stability of readVarInt. -/
theorem readVarIntFrom_append (b1 b2 : List Nat) (i v o : Nat)
    (h : readVarIntFrom b1 i = .ok (v, o)) (ho : o ≤ b1.length) :
    readVarIntFrom (b1 ++ b2) i = .ok (v, o) := by
  have h1 := readVarIntAux_append b1 b2 (b1.length + 1) i v o h ho
  exact readVarIntAux_ok_mono (b1 ++ b2) (b1.length + 1) i v o ((b1 ++ b2).length + 1) h1
    (by rw [List.length_append]; omega)

/-- Reading at an offset past a fixed prefix is reading in the suffix,
with all positions shifted by the prefix length. -/
theorem readVarIntAux_shift (b1 b2 : List Nat) :
    ∀ fuel i, readVarIntAux (b1 ++ b2) fuel (b1.length + i) =
      (readVarIntAux b2 fuel i).map (fun p => (p.1, b1.length + p.2)) := by
  intro fuel
  induction fuel with
  | zero => intro i; simp [readVarIntAux, Except.map]
  | succ g ih =>
    intro i
    have hbyte : readByte (b1 ++ b2) (b1.length + i) = readByte b2 i := by
      rw [readByte_eq_getElem?, readByte_eq_getElem?,
        List.getElem?_append_right (by omega : b1.length ≤ b1.length + i)]
      simp
    simp only [readVarIntAux, hbyte]
    by_cases hb : 128 ≤ readByte b2 i
    · rw [if_pos hb, if_pos hb]
      have hiff : b1.length + i + 1 = (b1 ++ b2).length ↔ i + 1 = b2.length := by
        rw [List.length_append]
        omega
      by_cases he : i + 1 = b2.length
      · rw [if_pos (hiff.mpr he), if_pos he]
        simp [Except.map]
      · rw [if_neg (fun hx => he (hiff.mp hx)), if_neg he]
        have := ih (i + 1)
        rw [show b1.length + i + 1 = b1.length + (i + 1) by omega, this]
        cases readVarIntAux b2 g (i + 1) with
        | error e => simp [Except.map]
        | ok p => simp [Except.map]
    · rw [if_neg hb, if_neg hb]
      simp [Except.map]
      omega

/-- Wrapper form of the shift lemma. -/
theorem readVarIntFrom_shift (b1 b2 : List Nat) (i : Nat) :
    readVarIntFrom (b1 ++ b2) (b1.length + i) =
      (readVarIntFrom b2 i).map (fun p => (p.1, b1.length + p.2)) := by
  unfold readVarIntFrom
  rw [readVarIntAux_mono (b1 ++ b2) ((b1 ++ b2).length + 1) (b1.length + i) (b2.length + 1)
    (by rw [List.length_append]; omega) (by rw [List.length_append]; omega)]
  exact readVarIntAux_shift b1 b2 (b2.length + 1) i

/-- The varint module decode applied to an encoded value reports the
value and the length of its encoding. -/
theorem Varint.decode_encode (n : Nat) (d : List Nat) (i : Nat) (rest : List Nat)
    (hdrop : d.drop i = Varint.encode n ++ rest) :
    Varint.decode d i = .ok (n, (Varint.encode n).length) := by
  unfold Varint.decode
  rw [readVarIntFrom_encode n d i rest hdrop]
  simp

/-- The varint module decode consumes at least one byte. -/
theorem Varint.decode_consumes (d : List Nat) (i v c : Nat)
    (h : Varint.decode d i = .ok (v, c)) : 1 ≤ c := by
  unfold Varint.decode at h
  cases hr : readVarIntFrom d i with
  | error e => rw [hr] at h; exact absurd h (by simp)
  | ok p =>
    rw [hr] at h
    obtain ⟨v', o⟩ := p
    simp only [Except.ok.injEq, Prod.mk.injEq] at h
    have := readVarIntFrom_consumes d i v' o hr
    omega

/-- The parse loop never moves the cursor backwards. -/
theorem ProtoBuf.parseLoop_le_offset (schema : SchemaDefinition) (d : List Nat) :
    ∀ fuel off acc a o, ProtoBuf.parseLoop schema d fuel off acc = .ok (a, o) → off ≤ o := by
  intro fuel
  induction fuel with
  | zero => intro off acc a o h; simp [ProtoBuf.parseLoop] at h
  | succ g ih =>
    intro off acc a o h
    simp only [ProtoBuf.parseLoop] at h
    by_cases hoff : d.length ≤ off
    · rw [if_pos hoff] at h
      simp only [Except.ok.injEq, Prod.mk.injEq] at h
      omega
    · rw [if_neg hoff] at h
      cases hr : readVarIntFrom d off with
      | error e => simp [hr] at h
      | ok p =>
        obtain ⟨v, o1⟩ := p
        simp only [hr] at h
        cases htag : tagOf schema.names v with
        | none => simp [htag] at h
        | some tag =>
          simp only [htag] at h
          by_cases h0 : v % 8 = 0
          · rw [if_pos h0] at h
            cases hr2 : readVarIntFrom d o1 with
            | error e => simp [hr2] at h
            | ok q =>
              obtain ⟨val, o2⟩ := q
              simp only [hr2] at h
              have c1 := readVarIntFrom_consumes d off v o1 hr
              have c2 := readVarIntFrom_consumes d o1 val o2 hr2
              have c3 := ih o2 (pushAcc acc tag (.nat val)) a o h
              omega
          · rw [if_neg h0] at h
            by_cases h2 : v % 8 = 2
            · rw [if_pos h2] at h
              cases hr2 : readVarIntFrom d o1 with
              | error e => simp [hr2] at h
              | ok q =>
                obtain ⟨len, o2⟩ := q
                simp only [hr2] at h
                by_cases hov : d.length < o2 + len
                · rw [if_pos hov] at h
                  simp at h
                · rw [if_neg hov] at h
                  have c1 := readVarIntFrom_consumes d off v o1 hr
                  have c2 := readVarIntFrom_consumes d o1 len o2 hr2
                  have c3 := ih (o2 + len) _ a o h
                  omega
            · rw [if_neg h2] at h
              simp at h

/-- The fuel of the parse loop is irrelevant once it exceeds the number
of bytes remaining. -/
theorem ProtoBuf.parseLoop_mono (schema : SchemaDefinition) (d : List Nat) :
    ∀ fuel off acc fuel', d.length - off < fuel → d.length - off < fuel' →
      ProtoBuf.parseLoop schema d fuel off acc = ProtoBuf.parseLoop schema d fuel' off acc := by
  intro fuel
  induction fuel with
  | zero => intro off acc fuel' h; omega
  | succ g ih =>
    intro off acc fuel' h h'
    cases fuel' with
    | zero => omega
    | succ g' =>
      simp only [ProtoBuf.parseLoop]
      by_cases hoff : d.length ≤ off
      · rw [if_pos hoff, if_pos hoff]
      · rw [if_neg hoff, if_neg hoff]
        cases hr : readVarIntFrom d off with
        | error e => rfl
        | ok p =>
          obtain ⟨v, o1⟩ := p
          dsimp only
          cases htag : tagOf schema.names v with
          | none => rfl
          | some tag =>
            dsimp only
            by_cases h0 : v % 8 = 0
            · rw [if_pos h0, if_pos h0]
              cases hr2 : readVarIntFrom d o1 with
              | error e => rfl
              | ok q =>
                obtain ⟨val, o2⟩ := q
                dsimp only
                have c1 := readVarIntFrom_consumes d off v o1 hr
                have c2 := readVarIntFrom_consumes d o1 val o2 hr2
                exact ih o2 (pushAcc acc tag (.nat val)) g' (by omega) (by omega)
            · rw [if_neg h0, if_neg h0]
              by_cases h2 : v % 8 = 2
              · rw [if_pos h2, if_pos h2]
                cases hr2 : readVarIntFrom d o1 with
                | error e => rfl
                | ok q =>
                  obtain ⟨len, o2⟩ := q
                  dsimp only
                  by_cases hov : d.length < o2 + len
                  · rw [if_pos hov, if_pos hov]
                  · rw [if_neg hov, if_neg hov]
                    have c1 := readVarIntFrom_consumes d off v o1 hr
                    have c2 := readVarIntFrom_consumes d o1 len o2 hr2
                    exact ih (o2 + len) _ g' (by omega) (by omega)
              · rw [if_neg h2, if_neg h2]

/-- At or past the end of the buffer the loop exits, returning the
accumulated fields and the current cursor. -/
theorem ProtoBuf.runLoop_exit (schema : SchemaDefinition) (d : List Nat) (off : Nat)
    (acc : TempResult) (h : d.length ≤ off) :
    ProtoBuf.runLoop schema d off acc = .ok (acc, off) := by
  unfold ProtoBuf.runLoop
  simp only [ProtoBuf.parseLoop]
  rw [if_pos h]

/-- One loop iteration over a varint field: push the decoded number and
continue past it. -/
theorem ProtoBuf.runLoop_varint_step (schema : SchemaDefinition) (d : List Nat)
    (off v o1 val o2 : Nat) (tag : String) (acc : TempResult)
    (hoff : off < d.length)
    (h1 : readVarIntFrom d off = .ok (v, o1))
    (htag : tagOf schema.names v = some tag)
    (h0 : v % 8 = 0)
    (h2 : readVarIntFrom d o1 = .ok (val, o2)) :
    ProtoBuf.runLoop schema d off acc =
      ProtoBuf.runLoop schema d o2 (pushAcc acc tag (.nat val)) := by
  unfold ProtoBuf.runLoop
  conv_lhs => rw [ProtoBuf.parseLoop]
  rw [if_neg (by omega)]
  simp only [h1, htag, if_pos h0, h2]
  have c1 := readVarIntFrom_consumes d off v o1 h1
  have c2 := readVarIntFrom_consumes d o1 val o2 h2
  exact ProtoBuf.parseLoop_mono schema d d.length o2 _ (d.length + 1) (by omega) (by omega)

/-- One loop iteration over a length-delimited field whose declared
region fits in the buffer: push the sliced bytes and continue past
them. -/
theorem ProtoBuf.runLoop_varlen_step (schema : SchemaDefinition) (d : List Nat)
    (off v o1 len o2 : Nat) (tag : String) (acc : TempResult)
    (hoff : off < d.length)
    (h1 : readVarIntFrom d off = .ok (v, o1))
    (htag : tagOf schema.names v = some tag)
    (h0 : v % 8 = 2)
    (h2 : readVarIntFrom d o1 = .ok (len, o2))
    (hfit : o2 + len ≤ d.length) :
    ProtoBuf.runLoop schema d off acc =
      ProtoBuf.runLoop schema d (o2 + len) (pushAcc acc tag (.bytes ((d.drop o2).take len))) := by
  unfold ProtoBuf.runLoop
  conv_lhs => rw [ProtoBuf.parseLoop]
  rw [if_neg (by omega)]
  have h00 : ¬ v % 8 = 0 := by omega
  simp only [h1, htag, if_neg h00, if_pos h0, h2, if_neg (by omega : ¬ d.length < o2 + len)]
  have c1 := readVarIntFrom_consumes d off v o1 h1
  have c2 := readVarIntFrom_consumes d o1 len o2 h2
  exact ProtoBuf.parseLoop_mono schema d d.length (o2 + len) _ (d.length + 1)
    (by omega) (by omega)

/-- Pushing a value never creates an empty occurrence list. -/
theorem pushAcc_ne_nil : ∀ (acc : TempResult) (k : String) (v : WireValue),
    (∀ p ∈ acc, p.2 ≠ []) → ∀ p ∈ pushAcc acc k v, p.2 ≠ [] := by
  intro acc
  induction acc with
  | nil =>
    intro k v _ p hp
    simp only [pushAcc, List.mem_singleton] at hp
    subst hp
    simp
  | cons hd t ih =>
    intro k v h p hp
    obtain ⟨k', vs⟩ := hd
    simp only [pushAcc] at hp
    by_cases hk : k = k'
    · rw [if_pos hk] at hp
      rcases List.mem_cons.mp hp with h1 | h2
      · subst h1; simp
      · exact h p (List.mem_cons_of_mem _ h2)
    · rw [if_neg hk] at hp
      rcases List.mem_cons.mp hp with h1 | h2
      · subst h1; exact h (k', vs) (List.mem_cons_self _ _)
      · exact ih k v (fun q hq => h q (List.mem_cons_of_mem _ hq)) p h2

/-- Every occurrence list produced by the parse loop is nonempty: an
entry is created only when a first value is pushed. -/
theorem ProtoBuf.parseLoop_ne_nil (schema : SchemaDefinition) (d : List Nat) :
    ∀ fuel off acc a o, ProtoBuf.parseLoop schema d fuel off acc = .ok (a, o) →
      (∀ p ∈ acc, p.2 ≠ []) → ∀ p ∈ a, p.2 ≠ [] := by
  intro fuel
  induction fuel with
  | zero => intro off acc a o h; simp [ProtoBuf.parseLoop] at h
  | succ g ih =>
    intro off acc a o h hacc
    simp only [ProtoBuf.parseLoop] at h
    by_cases hoff : d.length ≤ off
    · rw [if_pos hoff] at h
      simp only [Except.ok.injEq, Prod.mk.injEq] at h
      exact h.1 ▸ hacc
    · rw [if_neg hoff] at h
      cases hr : readVarIntFrom d off with
      | error e => simp [hr] at h
      | ok p =>
        obtain ⟨v, o1⟩ := p
        simp only [hr] at h
        cases htag : tagOf schema.names v with
        | none => simp [htag] at h
        | some tag =>
          simp only [htag] at h
          by_cases h0 : v % 8 = 0
          · rw [if_pos h0] at h
            cases hr2 : readVarIntFrom d o1 with
            | error e => simp [hr2] at h
            | ok q =>
              obtain ⟨val, o2⟩ := q
              simp only [hr2] at h
              exact ih o2 _ a o h (pushAcc_ne_nil acc tag (.nat val) hacc)
          · rw [if_neg h0] at h
            by_cases h2 : v % 8 = 2
            · rw [if_pos h2] at h
              cases hr2 : readVarIntFrom d o1 with
              | error e => simp [hr2] at h
              | ok q =>
                obtain ⟨len, o2⟩ := q
                simp only [hr2] at h
                by_cases hov : d.length < o2 + len
                · rw [if_pos hov] at h; simp at h
                · rw [if_neg hov] at h
                  exact ih (o2 + len) _ a o h (pushAcc_ne_nil acc tag _ hacc)
            · rw [if_neg h2] at h; simp at h

/-- Parsing at an offset past a fixed prefix is parsing the suffix with
all cursor positions shifted by the prefix length. -/
theorem ProtoBuf.parseLoop_shift (schema : SchemaDefinition) (b1 b2 : List Nat) :
    ∀ fuel off acc, ProtoBuf.parseLoop schema (b1 ++ b2) fuel (b1.length + off) acc =
      (ProtoBuf.parseLoop schema b2 fuel off acc).map (fun p => (p.1, b1.length + p.2)) := by
  intro fuel
  induction fuel with
  | zero => intro off acc; simp [ProtoBuf.parseLoop, Except.map]
  | succ g ih =>
    intro off acc
    simp only [ProtoBuf.parseLoop]
    by_cases hoff : b2.length ≤ off
    · rw [if_pos (by rw [List.length_append]; omega), if_pos hoff]
      simp [Except.map]
    · rw [if_neg (by rw [List.length_append]; omega), if_neg hoff]
      rw [readVarIntFrom_shift b1 b2 off]
      cases hr : readVarIntFrom b2 off with
      | error e => simp [Except.map]
      | ok p =>
        obtain ⟨v, o1⟩ := p
        simp only [Except.map]
        try dsimp only
        cases htag : tagOf schema.names v with
        | none => simp
        | some tag =>
          try dsimp only
          by_cases h0 : v % 8 = 0
          · rw [if_pos h0, if_pos h0]
            rw [readVarIntFrom_shift b1 b2 o1]
            cases hr2 : readVarIntFrom b2 o1 with
            | error e => simp [Except.map]
            | ok q =>
              obtain ⟨val, o2⟩ := q
              simp only [Except.map]
              try dsimp only
              exact ih o2 (pushAcc acc tag (.nat val))
          · rw [if_neg h0, if_neg h0]
            by_cases h2 : v % 8 = 2
            · rw [if_pos h2, if_pos h2]
              rw [readVarIntFrom_shift b1 b2 o1]
              cases hr2 : readVarIntFrom b2 o1 with
              | error e => simp [Except.map]
              | ok q =>
                obtain ⟨len, o2⟩ := q
                simp only [Except.map]
                try dsimp only
                have hciff : (b1 ++ b2).length < b1.length + o2 + len ↔ b2.length < o2 + len := by
                  rw [List.length_append]; omega
                by_cases hov : b2.length < o2 + len
                · rw [if_pos (hciff.mpr hov), if_pos hov]
                · rw [if_neg (fun hx => hov (hciff.mp hx)), if_neg hov]
                  rw [show b1.length + o2 + len = b1.length + (o2 + len) by omega]
                  rw [show (b1 ++ b2).drop (b1.length + o2) = b2.drop o2 from List.drop_append o2]
                  exact ih (o2 + len) (pushAcc acc tag (.bytes ((b2.drop o2).take len)))
            · rw [if_neg h2, if_neg h2]

/-- If a prefix parses cleanly on its own (ending exactly at its length),
parsing the extended buffer first replays the prefix and then continues
from the prefix boundary with the accumulated fields. -/
theorem ProtoBuf.parseLoop_append (schema : SchemaDefinition) (b1 b2 : List Nat)
    (acc1 : TempResult) :
    ∀ fuel off acc, ProtoBuf.parseLoop schema b1 fuel off acc = .ok (acc1, b1.length) →
      ProtoBuf.runLoop schema (b1 ++ b2) off acc =
        ProtoBuf.runLoop schema (b1 ++ b2) b1.length acc1 := by
  intro fuel
  induction fuel with
  | zero => intro off acc h; simp [ProtoBuf.parseLoop] at h
  | succ g ih =>
    intro off acc h
    simp only [ProtoBuf.parseLoop] at h
    by_cases hoff : b1.length ≤ off
    · rw [if_pos hoff] at h
      simp only [Except.ok.injEq, Prod.mk.injEq] at h
      rw [h.1, h.2]
    · rw [if_neg hoff] at h
      cases hr : readVarIntFrom b1 off with
      | error e => simp [hr] at h
      | ok p =>
        obtain ⟨v, o1⟩ := p
        simp only [hr] at h
        have ho1 : o1 ≤ b1.length := readVarIntFrom_le_length b1 off v o1 (by omega) hr
        have hr' : readVarIntFrom (b1 ++ b2) off = .ok (v, o1) :=
          readVarIntFrom_append b1 b2 off v o1 hr ho1
        cases htag : tagOf schema.names v with
        | none => simp [htag] at h
        | some tag =>
          simp only [htag] at h
          by_cases h0 : v % 8 = 0
          · rw [if_pos h0] at h
            cases hr2 : readVarIntFrom b1 o1 with
            | error e => simp [hr2] at h
            | ok q =>
              obtain ⟨val, o2⟩ := q
              simp only [hr2] at h
              have ho2 : o2 ≤ b1.length :=
                ProtoBuf.parseLoop_le_offset schema b1 g o2 _ acc1 b1.length h
              have hr2' : readVarIntFrom (b1 ++ b2) o1 = .ok (val, o2) :=
                readVarIntFrom_append b1 b2 o1 val o2 hr2 ho2
              rw [ProtoBuf.runLoop_varint_step schema (b1 ++ b2) off v o1 val o2 tag acc
                (by rw [List.length_append]; omega) hr' htag h0 hr2']
              exact ih o2 _ h
          · rw [if_neg h0] at h
            by_cases h2 : v % 8 = 2
            · rw [if_pos h2] at h
              cases hr2 : readVarIntFrom b1 o1 with
              | error e => simp [hr2] at h
              | ok q =>
                obtain ⟨len, o2⟩ := q
                simp only [hr2] at h
                by_cases hov : b1.length < o2 + len
                · rw [if_pos hov] at h; simp at h
                · rw [if_neg hov] at h
                  have hr2' : readVarIntFrom (b1 ++ b2) o1 = .ok (len, o2) :=
                    readVarIntFrom_append b1 b2 o1 len o2 hr2 (by omega)
                  have hdlen : len ≤ (b1.drop o2).length := by
                    rw [List.length_drop]; omega
                  have hslice : ((b1 ++ b2).drop o2).take len = (b1.drop o2).take len := by
                    rw [List.drop_append_of_le_length (by omega),
                      List.take_append_of_le_length hdlen]
                  rw [ProtoBuf.runLoop_varlen_step schema (b1 ++ b2) off v o1 len o2 tag acc
                    (by rw [List.length_append]; omega) hr' htag h2 hr2'
                    (by rw [List.length_append]; omega), hslice]
                  exact ih (o2 + len) _ h
            · rw [if_neg h2] at h; simp at h

/-- The temporary result threaded through the parse loop only ever grows
by pushes: the loop's outcome on any starting accumulator is the merge of
that accumulator with the pure record sequence read from the buffer. -/
theorem ProtoBuf.parseLoop_mergePairs (schema : SchemaDefinition) (d : List Nat) :
    ∀ fuel off, (∃ e, ∀ acc, ProtoBuf.parseLoop schema d fuel off acc = .error e) ∨
      (∃ ps o, ∀ acc, ProtoBuf.parseLoop schema d fuel off acc = .ok (mergePairs acc ps, o)) := by
  intro fuel
  induction fuel with
  | zero => intro off; exact Or.inl ⟨.bufferOverrun, fun acc => rfl⟩
  | succ g ih =>
    intro off
    by_cases hoff : d.length ≤ off
    · right
      exact ⟨[], off, fun acc => by
        simp only [ProtoBuf.parseLoop]; rw [if_pos hoff]; rfl⟩
    · cases hr : readVarIntFrom d off with
      | error e =>
        left
        exact ⟨e, fun acc => by
          simp only [ProtoBuf.parseLoop]; rw [if_neg hoff]; simp [hr]⟩
      | ok p =>
        obtain ⟨v, o1⟩ := p
        cases htag : tagOf schema.names v with
        | none =>
          left
          exact ⟨.unknownField, fun acc => by
            simp only [ProtoBuf.parseLoop]; rw [if_neg hoff]; simp [hr, htag]⟩
        | some tag =>
          by_cases h0 : v % 8 = 0
          · cases hr2 : readVarIntFrom d o1 with
            | error e =>
              left
              exact ⟨e, fun acc => by
                simp only [ProtoBuf.parseLoop]; rw [if_neg hoff]
                simp [hr, htag, h0, hr2]⟩
            | ok q =>
              obtain ⟨val, o2⟩ := q
              rcases ih o2 with ⟨e, he⟩ | ⟨ps, o, hps⟩
              · left
                exact ⟨e, fun acc => by
                  simp only [ProtoBuf.parseLoop]; rw [if_neg hoff]
                  simp only [hr, htag, if_pos h0, hr2]
                  exact he _⟩
              · right
                refine ⟨(tag, .nat val) :: ps, o, fun acc => ?_⟩
                simp only [ProtoBuf.parseLoop]; rw [if_neg hoff]
                simp only [hr, htag, if_pos h0, hr2]
                rw [hps (pushAcc acc tag (.nat val))]
                rfl
          · by_cases h2 : v % 8 = 2
            · cases hr2 : readVarIntFrom d o1 with
              | error e =>
                left
                exact ⟨e, fun acc => by
                  simp only [ProtoBuf.parseLoop]; rw [if_neg hoff]
                  simp [hr, htag, h0, h2, hr2]⟩
              | ok q =>
                obtain ⟨len, o2⟩ := q
                by_cases hov : d.length < o2 + len
                · left
                  exact ⟨.bufferOverrun, fun acc => by
                    simp only [ProtoBuf.parseLoop]; rw [if_neg hoff]
                    simp [hr, htag, h0, h2, hr2, hov]⟩
                · rcases ih (o2 + len) with ⟨e, he⟩ | ⟨ps, o, hps⟩
                  · left
                    exact ⟨e, fun acc => by
                      simp only [ProtoBuf.parseLoop]; rw [if_neg hoff]
                      simp only [hr, htag, if_neg h0, if_pos h2, hr2, if_neg hov]
                      exact he _⟩
                  · right
                    refine ⟨(tag, .bytes ((d.drop o2).take len)) :: ps, o, fun acc => ?_⟩
                    simp only [ProtoBuf.parseLoop]; rw [if_neg hoff]
                    simp only [hr, htag, if_neg h0, if_pos h2, hr2, if_neg hov]
                    rw [hps _]
                    rfl
            · left
              exact ⟨.unsupportedWireType, fun acc => by
                simp only [ProtoBuf.parseLoop]; rw [if_neg hoff]; simp [hr, htag, h0, h2]⟩

/-- Key hit at the head of an association list. -/
theorem lookup_cons_eq {β : Type} (k : String) (b : β) (es : List (String × β)) :
    List.lookup k ((k, b) :: es) = some b := by
  simp [List.lookup_cons]

/-- Key miss at the head of an association list. -/
theorem lookup_cons_ne {β : Type} (k k0 : String) (h : k ≠ k0) (b : β)
    (es : List (String × β)) : List.lookup k ((k0, b) :: es) = List.lookup k es := by
  have hb : (k == k0) = false := beq_eq_false_iff_ne.mpr h
  simp [List.lookup_cons, hb]

/-- Looking a key up after a push: the pushed value lands at the end of
that key's occurrence list, other keys are untouched. -/
theorem pushAcc_lookup (m : TempResult) (k' : String) (u : WireValue) (k : String) :
    (pushAcc m k' u).lookup k =
      if k = k' then some (((m.lookup k').getD []) ++ [u]) else m.lookup k := by
  induction m with
  | nil =>
    by_cases hk : k = k'
    · subst hk; simp [pushAcc, lookup_cons_eq]
    · simp only [pushAcc]
      rw [lookup_cons_ne k k' hk, if_neg hk]
  | cons hd t ih =>
    obtain ⟨k0, vs⟩ := hd
    simp only [pushAcc]
    by_cases hk0 : k' = k0
    · subst hk0
      rw [if_pos rfl]
      by_cases hk : k = k'
      · subst hk
        rw [lookup_cons_eq, lookup_cons_eq, if_pos rfl]
        rfl
      · rw [lookup_cons_ne k k' hk, lookup_cons_ne k k' hk, if_neg hk]
    · rw [if_neg hk0]
      by_cases hk : k = k0
      · subst hk
        have hkne : k ≠ k' := fun hx => hk0 hx.symm
        rw [lookup_cons_eq, lookup_cons_eq, if_neg hkne]
      · rw [lookup_cons_ne k k0 hk, lookup_cons_ne k k0 hk, ih]
        by_cases hkk : k = k'
        · subst hkk
          rw [if_pos rfl, if_pos rfl, lookup_cons_ne k k0 hk]
        · rw [if_neg hkk, if_neg hkk]

/-- Merging a record sequence appends, per key, the values of that key in
record order. -/
theorem mergePairs_lookup (k : String) :
    ∀ (ps : List (String × WireValue)) (m : TempResult) (w : List WireValue),
      m.lookup k = some w →
      (mergePairs m ps).lookup k = some (w ++ valuesOf k ps) := by
  intro ps
  induction ps with
  | nil =>
    intro m w h
    simpa [mergePairs, valuesOf] using h
  | cons hd t ih =>
    intro m w h
    obtain ⟨k', u⟩ := hd
    simp only [mergePairs, valuesOf]
    by_cases hk : k = k'
    · subst hk
      have hpush : (pushAcc m k u).lookup k = some (w ++ [u]) := by
        rw [pushAcc_lookup, if_pos rfl, h]
        rfl
      rw [if_pos rfl, ih (pushAcc m k u) (w ++ [u]) hpush]
      simp
    · have hpush : (pushAcc m k' u).lookup k = some w := by
        rw [pushAcc_lookup, if_neg hk]
        exact h
      rw [if_neg hk]
      exact ih (pushAcc m k' u) w hpush

/-- Looking up a key in the collapsed result is collapsing the temporary
entry for that key. -/
theorem collapse_lookup (schema : SchemaDefinition) (acc : TempResult) (k : String) :
    (collapse schema acc).lookup k =
      (acc.lookup k).map (fun vs => collapseVal schema k vs) := by
  induction acc with
  | nil => simp [collapse]
  | cons hd t ih =>
    obtain ⟨k0, vs⟩ := hd
    simp only [collapse, List.map_cons]
    by_cases hk : k = k0
    · subst hk
      rw [lookup_cons_eq, lookup_cons_eq]
      rfl
    · rw [lookup_cons_ne k k0 hk, lookup_cons_ne k k0 hk]
      simpa [collapse] using ih

/-- A successful association lookup names an entry of the list. -/
theorem lookup_mem {β : Type} : ∀ (l : List (String × β)) (k : String) (b : β),
    l.lookup k = some b → (k, b) ∈ l := by
  intro l
  induction l with
  | nil => intro k b h; simp [List.lookup] at h
  | cons hd t ih =>
    intro k b h
    obtain ⟨k0, b0⟩ := hd
    by_cases hk : k = k0
    · subst hk
      rw [lookup_cons_eq] at h
      simp only [Option.some.injEq] at h
      subst h
      exact List.mem_cons_self _ _
    · rw [lookup_cons_ne k k0 hk] at h
      exact List.mem_cons_of_mem _ (ih k b h)

/-- Claim C3: varint decoding of the varint encoding of any non-negative
integer n (in particular 0, 300 and 4294967296) yields n together with a
consumed-byte count equal to the length of the encoding: for readVarInt
of src/src/protobuf.ts (which reports the next cursor, here read from
offset 0) and for the varint module decode. -/
theorem claim_c3_varint_roundtrip (n : Nat) :
    readVarIntFrom (Varint.encode n) 0 = .ok (n, (Varint.encode n).length) ∧
    Varint.decode (Varint.encode n) 0 = .ok (n, (Varint.encode n).length) := by
  have hdrop : (Varint.encode n).drop 0 = Varint.encode n ++ [] := by simp
  constructor
  · have h := readVarIntFrom_encode n (Varint.encode n) 0 [] hdrop
    simpa using h
  · exact Varint.decode_encode n (Varint.encode n) 0 [] hdrop

/-- Claim C4 counterexample: varint decoding does read past the end of
the buffer without failing.  On the buffer holding the single tag byte 8
(field 1, wire type varint) the value varint starts exactly at the end of
the buffer; readVarInt reads the JS undefined there, fabricates the value
0 while consuming a phantom byte, and the whole parse succeeds with the
data field set to 0 instead of failing with BufferOverrun. -/
theorem claim_c4_counterexample :
    readVarIntFrom [8] 1 = .ok (0, 2) ∧
    ProtoBuf.parse [8] ProtoBuf.pbnode = .ok [("data", .one (.nat 0))] := by
  constructor <;> rfl

/-- Claim C4 (amended): a varint whose continuation bit is set on the
final byte of the buffer fails with BufferOverrun, but a varint read
requested at or past the end of the buffer does not fail: it reads the
out-of-bounds byte as 0 (the JS undefined under the bit masks) and
returns the fabricated value 0, consuming one phantom byte. -/
theorem claim_c4_varint_overrun (d : List Nat) (i : Nat) :
    (128 ≤ readByte d i → i + 1 = d.length → readVarIntFrom d i = .error .bufferOverrun) ∧
    (d.length ≤ i → readVarIntFrom d i = .ok (0, i + 1)) :=
  ⟨readVarIntFrom_final_cont d i, readVarIntFrom_past_end d i⟩

/-- Witness for the amended claim C4 at concrete inputs: the buffer with
one continuation byte overruns, and a read at the end of a two-byte
buffer fabricates 0. -/
theorem claim_c4_witness :
    (128 ≤ readByte [128] 0 ∧ 0 + 1 = [128].length ∧
      readVarIntFrom [128] 0 = .error .bufferOverrun) ∧
    ([0, 5].length ≤ 2 ∧ readVarIntFrom [0, 5] 2 = .ok (0, 3)) := by
  refine ⟨⟨by decide, by decide, (claim_c4_varint_overrun [128] 0).1 (by decide) (by decide)⟩,
    by decide, (claim_c4_varint_overrun [0, 5] 2).2 (by decide)⟩

/-- Claim C5 evaluation at the failing input: on the buffer holding the
tag byte 18 (field 2, length-delimited) and the declared length 1 with no
payload byte, the part_002 decoder passes its bounds check, which is made
while the cursor still sits on the length varint, then advances and
silently slices zero of the declared one byte, succeeding with an empty
data field; the canonical src/src/protobuf.ts decoder, which checks after
advancing past the length varint, rejects the same buffer with
BufferOverrun. -/
theorem claim_c5_truncation :
    V2.ProtoBuf.parse [18, 1] V2.unixfs = .ok [("data", .one (.bytes []))] ∧
    ProtoBuf.parse [18, 1] ProtoBuf.unixfs = .error .bufferOverrun := by
  constructor <;> rfl

/-- Claim C7: a decoded link record whose hash field is a byte sequence
of length other than 34 makes PBLink.parse fail with the unsupported hash
error, for every external fetch and base58 encoder, without truncating or
padding. -/
theorem claim_c7_hash_shape (getBlock : String → Except Err (List Nat))
    (b58encode : List Nat → String) (d : List Nat)
    (r : List (String × ResultValue)) (bs : List Nat)
    (hp : ProtoBuf.parse d ProtoBuf.pblink = .ok r)
    (hh : r.lookup "hash" = some (.one (.bytes bs)))
    (hlen : bs.length ≠ 34) :
    PBLink.parse getBlock b58encode d = .error .unsupportedHash := by
  unfold PBLink.parse
  simp only [hp, hh]
  rw [if_neg hlen]

/-- Witness for claim C7: a link record with a 1-byte hash fails with the
unsupported hash error. -/
theorem claim_c7_witness :
    ProtoBuf.parse [10, 1, 170] ProtoBuf.pblink = .ok [("hash", .one (.bytes [170]))] ∧
    PBLink.parse (fun _ => .ok []) (fun _ => "") [10, 1, 170] = .error .unsupportedHash := by
  refine ⟨rfl, ?_⟩
  exact claim_c7_hash_shape (fun _ => .ok []) (fun _ => "") [10, 1, 170]
    [("hash", .one (.bytes [170]))] [170] rfl rfl (by decide)

/-- Claim C8 counterexample: a UnixFS payload whose data field is present
but is the varint 0 rather than a byte sequence does not fail with the
bad Data error: the falsy-value check treats it as absent and decoding
succeeds with the empty byte sequence. -/
theorem claim_c8_counterexample :
    ProtoBuf.parse [8, 2, 16, 0] ProtoBuf.unixfs =
      .ok [("type", .one (.nat 2)), ("data", .one (.nat 0))] ∧
    PBData.parse [8, 2, 16, 0] = .ok [] := by
  constructor <;> rfl

/-- Claim C8 (amended): decoding fails with the unsupported type error
unless the type field decodes to the number 2 (File); with type File, an
absent data field or a data field holding the falsy varint 0 decodes to
the empty byte sequence; a data field holding a nonzero varint fails with
bad Data; a data field holding bytes decodes to those bytes. -/
theorem claim_c8_payload_branches (d : List Nat) (r : List (String × ResultValue))
    (hp : ProtoBuf.parse d ProtoBuf.unixfs = .ok r) :
    (r.lookup "type" ≠ some (.one (.nat 2)) → PBData.parse d = .error .unsupportedType) ∧
    (r.lookup "type" = some (.one (.nat 2)) →
      (r.lookup "data" = none → PBData.parse d = .ok []) ∧
      (r.lookup "data" = some (.one (.nat 0)) → PBData.parse d = .ok []) ∧
      (∀ n, n ≠ 0 → r.lookup "data" = some (.one (.nat n)) →
        PBData.parse d = .error .badData) ∧
      (∀ bs, r.lookup "data" = some (.one (.bytes bs)) → PBData.parse d = .ok bs)) := by
  constructor
  · intro ht
    unfold PBData.parse
    simp only [hp]
    rw [if_pos ht]
  · intro ht
    refine ⟨?_, ?_, ?_, ?_⟩
    · intro hd
      unfold PBData.parse
      simp only [hp, hd]
      rw [if_neg (by simp [ht])]
    · intro hd
      unfold PBData.parse
      simp only [hp, hd]
      rw [if_neg (by simp [ht])]
    · intro n hn hd
      unfold PBData.parse
      simp only [hp, hd]
      rw [if_neg (by simp [ht])]
    · intro bs hd
      unfold PBData.parse
      simp only [hp, hd]
      rw [if_neg (by simp [ht])]

/-- Witness for the amended claim C8 at concrete inputs: type File with
no data yields empty bytes, and a non-File type fails. -/
theorem claim_c8_witness :
    ProtoBuf.parse [8, 2] ProtoBuf.unixfs = .ok [("type", .one (.nat 2))] ∧
    PBData.parse [8, 2] = .ok [] ∧ PBData.parse [8, 1] = .error .unsupportedType := by
  refine ⟨rfl, ?_, ?_⟩
  · exact ((claim_c8_payload_branches [8, 2] [("type", .one (.nat 2))] rfl).2 rfl).1 rfl
  · exact (claim_c8_payload_branches [8, 1] [("type", .one (.nat 1))] rfl).1 (by decide)

/-- Claim C2: on a decoded container node, a present links entry (always
a nonempty list) makes the node resolve to the concatenation, in link
list order, of the byte sequences the links resolve to; with no links
entry, a data entry holding bytes is decoded as a UnixFS payload; with
neither, decoding fails with the missing links or data error. -/
theorem claim_c2_node_branches (resolveLink : WireValue → Except Err (List Nat))
    (d : List Nat) (r : List (String × ResultValue))
    (hp : ProtoBuf.parse d ProtoBuf.pbnode = .ok r) :
    (∀ ls, r.lookup "links" = some (.many ls) →
      ls ≠ [] ∧ ∀ bss, ls.mapM resolveLink = .ok bss →
        PBNode.parse resolveLink d = .ok bss.flatten) ∧
    (r.lookup "links" = none → ∀ bs, r.lookup "data" = some (.one (.bytes bs)) →
      PBNode.parse resolveLink d = PBData.parse bs) ∧
    (r.lookup "links" = none → (∀ bs, r.lookup "data" ≠ some (.one (.bytes bs))) →
      PBNode.parse resolveLink d = .error .missingLinksOrData) := by
  refine ⟨?_, ?_, ?_⟩
  · intro ls hls
    constructor
    · have hp2 := hp
      unfold ProtoBuf.parse at hp2
      cases hrun : ProtoBuf.runLoop ProtoBuf.pbnode d 0 [] with
      | error e => simp [hrun] at hp2
      | ok p =>
        obtain ⟨acc, fin⟩ := p
        simp only [hrun, Except.ok.injEq] at hp2
        have hr : r = collapse ProtoBuf.pbnode acc := hp2.symm
        rw [hr, collapse_lookup] at hls
        cases hacc : acc.lookup "links" with
        | none => rw [hacc] at hls; simp at hls
        | some vs =>
          rw [hacc] at hls
          simp only [Option.map] at hls
          unfold collapseVal at hls
          rw [show ProtoBuf.pbnode.repeatedKeys.contains "links" = true from rfl] at hls
          simp only [if_true, Option.some.injEq, ResultValue.many.injEq] at hls
          have hmem := lookup_mem acc "links" vs hacc
          have hnn := ProtoBuf.parseLoop_ne_nil ProtoBuf.pbnode d (d.length + 1) 0 [] acc fin
            hrun (by simp) ("links", vs) hmem
          rw [← hls]
          exact hnn
    · intro bss hbss
      unfold PBNode.parse
      simp only [hp, hls, hbss]
  · intro hlinks bs hdata
    unfold PBNode.parse
    simp only [hp, hlinks, hdata]
  · intro hlinks hnotdata
    unfold PBNode.parse
    simp only [hp, hlinks]

/-- Witness for claim C2: a node with one link resolves to the link's
bytes, under a resolver answering with a fixed block. -/
theorem claim_c2_witness :
    ProtoBuf.parse [18, 2, 170, 187] ProtoBuf.pbnode =
      .ok [("links", .many [.bytes [170, 187]])] ∧
    PBNode.parse (fun _ => .ok [1, 2]) [18, 2, 170, 187] = .ok ([[1, 2]] : List (List Nat)).flatten := by
  refine ⟨rfl, ?_⟩
  exact (((claim_c2_node_branches (fun _ => .ok [1, 2]) [18, 2, 170, 187]
    [("links", .many [.bytes [170, 187]])] rfl).1 [.bytes [170, 187]] rfl).2 [[1, 2]] rfl)

/-- Claim C9 counterexample: the links and data fields are not mutually
exclusive.  A node carrying both a data entry and a links entry is
resolvable: the links branch wins and the node resolves to the links'
blocks, the data entry being ignored. -/
theorem claim_c9_counterexample :
    ProtoBuf.parse [10, 1, 65, 18, 2, 170, 187] ProtoBuf.pbnode =
      .ok [("data", .one (.bytes [65])), ("links", .many [.bytes [170, 187]])] ∧
    PBNode.parse (fun _ => .ok [7]) [10, 1, 65, 18, 2, 170, 187] = .ok [7] := by
  constructor <;> rfl

/-- Claim C9 (amended): the decoder does not enforce mutual exclusivity
of links and data.  A node with both entries populated resolves through
the links branch, ignoring data; a node with neither entry fails with the
missing links or data error. -/
theorem claim_c9_links_precedence (resolveLink : WireValue → Except Err (List Nat))
    (d : List Nat) (r : List (String × ResultValue))
    (hp : ProtoBuf.parse d ProtoBuf.pbnode = .ok r) :
    (∀ ls dv, r.lookup "links" = some (.many ls) → r.lookup "data" = some dv →
      ∀ bss, ls.mapM resolveLink = .ok bss → PBNode.parse resolveLink d = .ok bss.flatten) ∧
    (r.lookup "links" = none → r.lookup "data" = none →
      PBNode.parse resolveLink d = .error .missingLinksOrData) := by
  constructor
  · intro ls dv hls hdata bss hbss
    unfold PBNode.parse
    simp only [hp, hls, hbss]
  · intro hlinks hdata
    unfold PBNode.parse
    simp only [hp, hlinks, hdata]

/-- Witness for the amended claim C9: the node carrying both fields from
the counterexample resolves through its links. -/
theorem claim_c9_witness :
    ProtoBuf.parse [10, 1, 65, 18, 2, 170, 187] ProtoBuf.pbnode =
      .ok [("data", .one (.bytes [65])), ("links", .many [.bytes [170, 187]])] ∧
    PBNode.parse (fun _ => .ok [3, 4]) [10, 1, 65, 18, 2, 170, 187] =
      .ok ([[3, 4]] : List (List Nat)).flatten := by
  refine ⟨rfl, ?_⟩
  exact ((claim_c9_links_precedence (fun _ => .ok [3, 4]) [10, 1, 65, 18, 2, 170, 187]
    [("data", .one (.bytes [65])), ("links", .many [.bytes [170, 187]])] rfl).1
    [.bytes [170, 187]] (.one (.bytes [65])) rfl rfl [[3, 4]] rfl)

/-- Hex digits are distinct. -/
theorem hexChar_inj : ∀ m, m < 16 → ∀ n, n < 16 → hexChar m = hexChar n → m = n := by decide

/-- The hex rendering of a byte sequence determines the bytes. -/
theorem hexlify_inj : ∀ (a b : List Nat), (∀ x ∈ a, x < 256) → (∀ x ∈ b, x < 256) →
    hexlify a = hexlify b → a = b := by
  intro a
  induction a with
  | nil =>
    intro b _ _ h
    cases b with
    | nil => rfl
    | cons c t => simp [hexlify] at h
  | cons x xs ih =>
    intro b ha hb h
    cases b with
    | nil => simp [hexlify] at h
    | cons y ys =>
      simp only [hexlify, List.flatMap_cons, List.cons_append, List.cons.injEq,
        List.nil_append, true_and] at h
      obtain ⟨h1, h2, h3⟩ := h
      have hx : x < 256 := ha x (List.mem_cons_self _ _)
      have hy : y < 256 := hb y (List.mem_cons_self _ _)
      have e1 : x / 16 = y / 16 :=
        hexChar_inj (x / 16) (by omega) (y / 16) (by omega) h1
      have e2 : x % 16 = y % 16 :=
        hexChar_inj (x % 16) (by omega) (y % 16) (by omega) h2
      have hxy : x = y := by omega
      have htl : xs = ys := by
        apply ih ys (fun z hz => ha z (List.mem_cons_of_mem _ hz))
          (fun z hz => hb z (List.mem_cons_of_mem _ hz))
        unfold hexlify
        rw [h3]
      rw [hxy, htl]

/-- Claim C1: whenever the SHA-256 digest of the fetched block differs
byte for byte from the digest embedded in the content identifier (the
base58 decode of the multihash with its 2-byte prefix stripped), the get
operation fails with the hash mismatch error, whatever the DAG decoding
parameter would have done with the body; the comparison happens on the
hex renderings exactly as in the source, and hex injectivity carries the
byte-level mismatch through. -/
theorem claim_c1_hash_check (fetch : String → Except Err (List Nat))
    (sha256 : List Nat → List Nat) (b58decode : String → List Nat)
    (parseNode : List Nat → Except Err (List Nat)) (multihash : String) (body : List Nat)
    (hf : fetch multihash = .ok body)
    (hs : ∀ x ∈ sha256 body, x < 256)
    (hc : ∀ x ∈ (b58decode multihash).drop 2, x < 256)
    (hne : sha256 body ≠ (b58decode multihash).drop 2) :
    ProtoBuf.get fetch sha256 b58decode parseNode multihash = .error .hashMismatch := by
  unfold ProtoBuf.get
  simp only [hf]
  rw [if_pos (fun h => hne (hexlify_inj _ _ hs hc h))]

/-- Witness for claim C1 at a concrete mismatching digest. -/
theorem claim_c1_witness :
    ((fun _ : String => (.ok [1] : Except Err (List Nat))) "Q" = .ok [1]) ∧
    ProtoBuf.get (fun _ => .ok [1]) (fun _ => [0]) (fun _ => [0, 0, 5])
      (fun _ => .ok [9]) "Q" = .error .hashMismatch := by
  refine ⟨rfl, ?_⟩
  exact claim_c1_hash_check (fun _ => .ok [1]) (fun _ => [0]) (fun _ => [0, 0, 5])
    (fun _ => .ok [9]) "Q" [1] rfl (by decide) (by decide) (by decide)

/-- Claim C10: when a field not marked repeated occurs in two buffer
regions, the decoded output maps it to the first occurrence's value: if a
prefix parses cleanly on its own and the remainder also parses, the whole
buffer parses (a malformed remainder would abort it), and a non-repeated
key whose occurrence list in the prefix starts with v is mapped to v in
the final result, whatever values the remainder pushed for it. -/
theorem claim_c10_first_occurrence (schema : SchemaDefinition) (b1 b2 : List Nat)
    (acc1 acc2 : TempResult) (o2 : Nat) (k : String) (v : WireValue) (vs : List WireValue)
    (h1 : ProtoBuf.runLoop schema b1 0 [] = .ok (acc1, b1.length))
    (h2 : ProtoBuf.runLoop schema b2 0 [] = .ok (acc2, o2))
    (hrep : schema.repeatedKeys.contains k = false)
    (hk : acc1.lookup k = some (v :: vs)) :
    ∃ r, ProtoBuf.parse (b1 ++ b2) schema = .ok r ∧ r.lookup k = some (.one v) := by
  unfold ProtoBuf.runLoop at h1 h2
  have hB := ProtoBuf.parseLoop_append schema b1 b2 acc1 (b1.length + 1) 0 [] h1
  have hC : ProtoBuf.runLoop schema (b1 ++ b2) b1.length acc1 =
      (ProtoBuf.runLoop schema b2 0 acc1).map (fun p => (p.1, b1.length + p.2)) := by
    unfold ProtoBuf.runLoop
    rw [ProtoBuf.parseLoop_mono schema (b1 ++ b2) ((b1 ++ b2).length + 1) b1.length acc1
      (b2.length + 1) (by rw [List.length_append]; omega) (by rw [List.length_append]; omega)]
    have hsh := ProtoBuf.parseLoop_shift schema b1 b2 (b2.length + 1) 0 acc1
    rw [show b1.length + 0 = b1.length by omega] at hsh
    exact hsh
  rcases ProtoBuf.parseLoop_mergePairs schema b2 (b2.length + 1) 0 with ⟨e, he⟩ | ⟨ps, o, hps⟩
  · rw [he []] at h2
    exact absurd h2 (by simp)
  · have hacc2 : ProtoBuf.runLoop schema b2 0 acc1 = .ok (mergePairs acc1 ps, o) := by
      unfold ProtoBuf.runLoop
      exact hps acc1
    have hcomb : ProtoBuf.runLoop schema (b1 ++ b2) 0 [] =
        .ok (mergePairs acc1 ps, b1.length + o) := by
      rw [hB, hC, hacc2]
      rfl
    have hlk : (mergePairs acc1 ps).lookup k = some ((v :: vs) ++ valuesOf k ps) :=
      mergePairs_lookup k ps acc1 (v :: vs) hk
    refine ⟨collapse schema (mergePairs acc1 ps), ?_, ?_⟩
    · unfold ProtoBuf.parse
      rw [hcomb]
    · rw [collapse_lookup, hlk]
      simp only [Option.map]
      unfold collapseVal
      rw [hrep]
      simp

/-- Witness for claim C10: the type field encoded twice (values 2 then 7)
collapses to the first value 2. -/
theorem claim_c10_witness :
    ProtoBuf.runLoop ProtoBuf.unixfs [8, 2] 0 [] = .ok ([("type", [.nat 2])], 2) ∧
    ∃ r, ProtoBuf.parse ([8, 2] ++ [8, 7]) ProtoBuf.unixfs = .ok r ∧
      r.lookup "type" = some (.one (.nat 2)) := by
  refine ⟨rfl, ?_⟩
  exact claim_c10_first_occurrence ProtoBuf.unixfs [8, 2] [8, 7] [("type", [.nat 2])]
    [("type", [.nat 7])] 2 "type" (.nat 2) [] rfl rfl rfl rfl

/-- The varint module decode of a single byte below 128. -/
theorem Varint.decode_byte (d : List Nat) (i x : Nat) (rest : List Nat) (hx : x < 128)
    (h : d.drop i = x :: rest) : Varint.decode d i = .ok (x, 1) := by
  have hd : d.drop i = Varint.encode x ++ rest := by
    rw [Varint.encode_lt x hx]
    simpa using h
  have := Varint.decode_encode x d i rest hd
  rwa [Varint.encode_lt x hx] at this

/-- The fuel of the part_002 parse loop is irrelevant once it exceeds the
number of bytes remaining. -/
theorem V2.parseLoop_fuel_mono (schema : V2.SchemaDefinition) (d : List Nat) :
    ∀ fuel off acc fuel', d.length - off < fuel → d.length - off < fuel' →
      V2.parseLoop schema d fuel off acc = V2.parseLoop schema d fuel' off acc := by
  intro fuel
  induction fuel with
  | zero => intro off acc fuel' h; omega
  | succ g ih =>
    intro off acc fuel' h h'
    cases fuel' with
    | zero => omega
    | succ g' =>
      simp only [V2.parseLoop]
      by_cases hoff : d.length ≤ off
      · rw [if_pos hoff, if_pos hoff]
      · rw [if_neg hoff, if_neg hoff]
        cases hr : Varint.decode d off with
        | error e => rfl
        | ok p =>
          obtain ⟨v, c⟩ := p
          try dsimp only
          cases htag : tagOf schema.names v with
          | none => rfl
          | some tag =>
            try dsimp only
            by_cases h0 : v % 8 = 0
            · rw [if_pos h0, if_pos h0]
              cases hr2 : Varint.decode d (off + c) with
              | error e => rfl
              | ok q =>
                obtain ⟨val, c2⟩ := q
                try dsimp only
                have hc1 := Varint.decode_consumes d off v c hr
                have hc2 := Varint.decode_consumes d (off + c) val c2 hr2
                exact ih (off + c + c2) (pushAcc acc tag (.nat val)) g' (by omega) (by omega)
            · rw [if_neg h0, if_neg h0]
              by_cases h2 : v % 8 = 2
              · rw [if_pos h2, if_pos h2]
                cases hr2 : Varint.decode d (off + c) with
                | error e => rfl
                | ok q =>
                  obtain ⟨len, c2⟩ := q
                  try dsimp only
                  by_cases hov : d.length < off + c + len
                  · rw [if_pos hov, if_pos hov]
                  · rw [if_neg hov, if_neg hov]
                    have hc1 := Varint.decode_consumes d off v c hr
                    have hc2 := Varint.decode_consumes d (off + c) len c2 hr2
                    exact ih (off + c + c2 + len) _ g' (by omega) (by omega)
              · rw [if_neg h2, if_neg h2]

/-- At or past the end of the buffer the part_002 loop exits. -/
theorem V2.runLoop_stop (schema : V2.SchemaDefinition) (d : List Nat) (off : Nat)
    (acc : TempResult) (h : d.length ≤ off) :
    V2.runLoop schema d off acc = .ok (acc, off) := by
  unfold V2.runLoop
  simp only [V2.parseLoop]
  rw [if_pos h]

/-- One part_002 loop iteration over a varint field. -/
theorem V2.runLoop_varint_field (schema : V2.SchemaDefinition) (d : List Nat)
    (off v c val c2 : Nat) (tag : String) (acc : TempResult)
    (hoff : off < d.length)
    (h1 : Varint.decode d off = .ok (v, c))
    (htag : tagOf schema.names v = some tag)
    (h0 : v % 8 = 0)
    (h2 : Varint.decode d (off + c) = .ok (val, c2)) :
    V2.runLoop schema d off acc =
      V2.runLoop schema d (off + c + c2) (pushAcc acc tag (.nat val)) := by
  unfold V2.runLoop
  conv_lhs => rw [V2.parseLoop]
  rw [if_neg (by omega)]
  simp only [h1, htag, if_pos h0, h2]
  have hc1 := Varint.decode_consumes d off v c h1
  have hc2 := Varint.decode_consumes d (off + c) val c2 h2
  exact V2.parseLoop_fuel_mono schema d d.length (off + c + c2) _ (d.length + 1)
    (by omega) (by omega)

/-- One part_002 loop iteration over a length-delimited field whose
pre-advance bounds check passes. -/
theorem V2.runLoop_varlen_field (schema : V2.SchemaDefinition) (d : List Nat)
    (off v c len c2 : Nat) (tag : String) (acc : TempResult)
    (hoff : off < d.length)
    (h1 : Varint.decode d off = .ok (v, c))
    (htag : tagOf schema.names v = some tag)
    (h0 : v % 8 = 2)
    (h2 : Varint.decode d (off + c) = .ok (len, c2))
    (hfit : off + c + len ≤ d.length) :
    V2.runLoop schema d off acc =
      V2.runLoop schema d (off + c + c2 + len)
        (pushAcc acc tag (.bytes ((d.drop (off + c + c2)).take len))) := by
  unfold V2.runLoop
  conv_lhs => rw [V2.parseLoop]
  rw [if_neg (by omega)]
  simp only [h1, htag, if_neg (by omega : ¬ v % 8 = 0), if_pos h0, h2,
    if_neg (by omega : ¬ d.length < off + c + len)]
  have hc1 := Varint.decode_consumes d off v c h1
  have hc2 := Varint.decode_consumes d (off + c) len c2 h2
  exact V2.parseLoop_fuel_mono schema d d.length (off + c + c2 + len) _ (d.length + 1)
    (by omega) (by omega)

/-- The UnixFS payload encoding of part_002, written out: type tag and
File value, data tag, data length varint, the data bytes, filesize tag
and the filesize varint (the same bytes as the data length). -/
theorem V2.PBData.encode_payload_eq (b : List Nat) :
    V2.PBData.encode b =
      8 :: 2 :: 18 :: (Varint.encode b.length ++ (b ++ (24 :: Varint.encode b.length))) := by
  unfold V2.PBData.encode
  dsimp only
  rw [show Varint.encode ((V2.unixfs.names.indexOf "type" + 1) <<< 3 + 0) = [8] by
        rw [show (V2.unixfs.names.indexOf "type" + 1) <<< 3 + 0 = 8 from rfl]
        exact Varint.encode_lt 8 (by omega),
      show Varint.encode ((V2.unixfs.names.indexOf "data" + 1) <<< 3 + 2) = [18] by
        rw [show (V2.unixfs.names.indexOf "data" + 1) <<< 3 + 2 = 18 from rfl]
        exact Varint.encode_lt 18 (by omega),
      show Varint.encode ((V2.unixfs.names.indexOf "filesize" + 1) <<< 3 + 0) = [24] by
        rw [show (V2.unixfs.names.indexOf "filesize" + 1) <<< 3 + 0 = 24 from rfl]
        exact Varint.encode_lt 24 (by omega),
      show Varint.encode 2 = [2] from Varint.encode_lt 2 (by omega)]
  simp [List.flatten]

/-- The container node encoding of part_002 around a payload: data tag,
length of the payload encoding, then the payload encoding. -/
theorem V2.PBNode.encode_node_eq (b : List Nat) :
    V2.PBNode.encode (some b) =
      10 :: (Varint.encode (V2.PBData.encode b).length ++ V2.PBData.encode b) := by
  unfold V2.PBNode.encode
  dsimp only
  rw [show Varint.encode ((V2.pbnode.names.indexOf "data" + 1) <<< 3 + 2) = [10] by
        rw [show (V2.pbnode.names.indexOf "data" + 1) <<< 3 + 2 = 10 from rfl]
        exact Varint.encode_lt 10 (by omega)]
  simp [List.flatten]

/-- Parsing the part_002 UnixFS payload encoding recovers the three
fields in order. -/
theorem V2.PBData.parse_encode_payload (b : List Nat) :
    V2.ProtoBuf.parse (V2.PBData.encode b) V2.unixfs =
      .ok [("type", .one (.nat 2)), ("data", .one (.bytes b)),
           ("filesize", .one (.nat b.length))] := by
  have hE := Varint.encode_length_pos b.length
  have henc := V2.PBData.encode_payload_eq b
  have e0 : (V2.PBData.encode b).drop 0 =
      8 :: (2 :: 18 :: (Varint.encode b.length ++ (b ++ (24 :: Varint.encode b.length)))) := by
    rw [henc]
    rfl
  have e1 : (V2.PBData.encode b).drop 1 =
      2 :: (18 :: (Varint.encode b.length ++ (b ++ (24 :: Varint.encode b.length)))) :=
    drop_succ_of_drop _ 0 _ _ e0
  have e2 : (V2.PBData.encode b).drop 2 =
      18 :: (Varint.encode b.length ++ (b ++ (24 :: Varint.encode b.length))) :=
    drop_succ_of_drop _ 1 _ _ e1
  have e3 : (V2.PBData.encode b).drop 3 =
      Varint.encode b.length ++ (b ++ (24 :: Varint.encode b.length)) :=
    drop_succ_of_drop _ 2 _ _ e2
  have e3b : (V2.PBData.encode b).drop (3 + (Varint.encode b.length).length) =
      b ++ (24 :: Varint.encode b.length) := by
    rw [← List.drop_drop, e3, List.drop_left]
  have e4 : (V2.PBData.encode b).drop (3 + (Varint.encode b.length).length + b.length) =
      24 :: Varint.encode b.length := by
    rw [← List.drop_drop, e3b, List.drop_left]
  have e5 : (V2.PBData.encode b).drop (3 + (Varint.encode b.length).length + b.length + 1) =
      Varint.encode b.length :=
    drop_succ_of_drop _ _ _ _ e4
  have hlen : (V2.PBData.encode b).length =
      3 + (Varint.encode b.length).length + b.length + 1 + (Varint.encode b.length).length := by
    rw [henc]
    simp [List.length_append]
    omega
  have hd0 : Varint.decode (V2.PBData.encode b) 0 = .ok (8, 1) :=
    Varint.decode_byte _ 0 8 _ (by omega) e0
  have hd1 : Varint.decode (V2.PBData.encode b) 1 = .ok (2, 1) :=
    Varint.decode_byte _ 1 2 _ (by omega) e1
  have hd2 : Varint.decode (V2.PBData.encode b) 2 = .ok (18, 1) :=
    Varint.decode_byte _ 2 18 _ (by omega) e2
  have hd3 : Varint.decode (V2.PBData.encode b) 3 =
      .ok (b.length, (Varint.encode b.length).length) :=
    Varint.decode_encode b.length _ 3 _ e3
  have hd4 : Varint.decode (V2.PBData.encode b) (3 + (Varint.encode b.length).length + b.length) =
      .ok (24, 1) :=
    Varint.decode_byte _ _ 24 _ (by omega) e4
  have hd5 : Varint.decode (V2.PBData.encode b)
      (3 + (Varint.encode b.length).length + b.length + 1) =
      .ok (b.length, (Varint.encode b.length).length) :=
    Varint.decode_encode b.length _ _ [] (by rw [e5, List.append_nil])
  have hstep1 := V2.runLoop_varint_field V2.unixfs (V2.PBData.encode b) 0 8 1 2 1 "type" []
    (by omega) hd0 rfl rfl hd1
  rw [show (0 : Nat) + 1 + 1 = 2 by omega] at hstep1
  rw [show pushAcc [] "type" (WireValue.nat 2) = [("type", [WireValue.nat 2])] from rfl] at hstep1
  have hstep2 := V2.runLoop_varlen_field V2.unixfs (V2.PBData.encode b) 2 18 1 b.length
    (Varint.encode b.length).length "data" [("type", [.nat 2])]
    (by omega) hd2 rfl rfl hd3 (by omega)
  rw [show (2 : Nat) + 1 + (Varint.encode b.length).length
        = 3 + (Varint.encode b.length).length by omega] at hstep2
  rw [show ((V2.PBData.encode b).drop (3 + (Varint.encode b.length).length)).take b.length
        = b by rw [e3b, List.take_left]] at hstep2
  rw [show pushAcc [("type", [WireValue.nat 2])] "data" (WireValue.bytes b)
        = [("type", [WireValue.nat 2]), ("data", [WireValue.bytes b])] by
    simp [pushAcc]] at hstep2
  have hstep3 := V2.runLoop_varint_field V2.unixfs (V2.PBData.encode b)
    (3 + (Varint.encode b.length).length + b.length) 24 1
    b.length (Varint.encode b.length).length "filesize"
    [("type", [.nat 2]), ("data", [.bytes b])]
    (by omega) hd4 rfl rfl hd5
  rw [show pushAcc [("type", [WireValue.nat 2]), ("data", [WireValue.bytes b])] "filesize"
        (WireValue.nat b.length)
        = [("type", [WireValue.nat 2]), ("data", [WireValue.bytes b]),
           ("filesize", [WireValue.nat b.length])] by
    simp [pushAcc]] at hstep3
  have hexit := V2.runLoop_stop V2.unixfs (V2.PBData.encode b)
    (3 + (Varint.encode b.length).length + b.length + 1 + (Varint.encode b.length).length)
    [("type", [.nat 2]), ("data", [.bytes b]), ("filesize", [.nat b.length])]
    (by omega)
  unfold V2.ProtoBuf.parse
  rw [hstep1, hstep2, hstep3, hexit]
  simp [V2.collapse, V2.unixfs]


/-- Parsing the part_002 node encoding yields a single data entry holding
the payload encoding. -/
theorem V2.PBNode.parse_encode_node (b : List Nat) :
    V2.ProtoBuf.parse (V2.PBNode.encode (some b)) V2.pbnode =
      .ok [("data", .one (.bytes (V2.PBData.encode b)))] := by
  have hE := Varint.encode_length_pos (V2.PBData.encode b).length
  have hnode := V2.PBNode.encode_node_eq b
  have f0 : (V2.PBNode.encode (some b)).drop 0 =
      10 :: (Varint.encode (V2.PBData.encode b).length ++ V2.PBData.encode b) := by
    rw [hnode]
    rfl
  have f1 : (V2.PBNode.encode (some b)).drop 1 =
      Varint.encode (V2.PBData.encode b).length ++ V2.PBData.encode b :=
    drop_succ_of_drop _ 0 _ _ f0
  have f1b : (V2.PBNode.encode (some b)).drop
      (1 + (Varint.encode (V2.PBData.encode b).length).length) = V2.PBData.encode b := by
    rw [← List.drop_drop, f1, List.drop_left]
  have hlen : (V2.PBNode.encode (some b)).length =
      1 + (Varint.encode (V2.PBData.encode b).length).length + (V2.PBData.encode b).length := by
    rw [hnode]
    simp [List.length_append]
    omega
  have hd0 : Varint.decode (V2.PBNode.encode (some b)) 0 = .ok (10, 1) :=
    Varint.decode_byte _ 0 10 _ (by omega) f0
  have hd1 : Varint.decode (V2.PBNode.encode (some b)) 1 =
      .ok ((V2.PBData.encode b).length, (Varint.encode (V2.PBData.encode b).length).length) :=
    Varint.decode_encode _ _ 1 _ f1
  have hstep1 := V2.runLoop_varlen_field V2.pbnode (V2.PBNode.encode (some b)) 0 10 1
    (V2.PBData.encode b).length (Varint.encode (V2.PBData.encode b).length).length "data" []
    (by omega) hd0 rfl rfl hd1 (by omega)
  rw [show (0 : Nat) + 1 + (Varint.encode (V2.PBData.encode b).length).length
        = 1 + (Varint.encode (V2.PBData.encode b).length).length by omega] at hstep1
  rw [show ((V2.PBNode.encode (some b)).drop
        (1 + (Varint.encode (V2.PBData.encode b).length).length)).take
        (V2.PBData.encode b).length = V2.PBData.encode b by
    rw [f1b]
    exact List.take_length _] at hstep1
  rw [show pushAcc [] "data" (WireValue.bytes (V2.PBData.encode b))
        = [("data", [WireValue.bytes (V2.PBData.encode b)])] from rfl] at hstep1
  have hexit := V2.runLoop_stop V2.pbnode (V2.PBNode.encode (some b))
    (1 + (Varint.encode (V2.PBData.encode b).length).length + (V2.PBData.encode b).length)
    [("data", [.bytes (V2.PBData.encode b)])] (by omega)
  unfold V2.ProtoBuf.parse
  rw [hstep1, hexit]
  simp [V2.collapse, V2.pbnode]

/-- Claim C6: encoding a DataNode wrapping any byte sequence b (the node
encode of the UnixFS File payload encoding of b) and then decoding that
node returns exactly the original bytes b, for every link resolver. -/
theorem claim_c6_wire_roundtrip (resolveLink : WireValue → Except Err (List Nat))
    (b : List Nat) :
    V2.PBNode.parse resolveLink (V2.PBNode.encode (some b)) = .ok b := by
  have hnode := V2.PBNode.parse_encode_node b
  have hdata : V2.PBData.parse (V2.PBData.encode b) = .ok b := by
    have hp := V2.PBData.parse_encode_payload b
    have hl1 : ([("type", ResultValue.one (WireValue.nat 2)),
        ("data", ResultValue.one (WireValue.bytes b)),
        ("filesize", ResultValue.one (WireValue.nat b.length))] :
        List (String × ResultValue)).lookup "type" = some (.one (.nat 2)) :=
      lookup_cons_eq _ _ _
    have hl2 : ([("type", ResultValue.one (WireValue.nat 2)),
        ("data", ResultValue.one (WireValue.bytes b)),
        ("filesize", ResultValue.one (WireValue.nat b.length))] :
        List (String × ResultValue)).lookup "data" = some (.one (.bytes b)) := by
      rw [lookup_cons_ne "data" "type" (by decide), lookup_cons_eq]
    unfold V2.PBData.parse
    simp only [hp, hl2]
    rw [if_neg (by simp [hl1])]
  have hl3 : ([("data", ResultValue.one (WireValue.bytes (V2.PBData.encode b)))] :
      List (String × ResultValue)).lookup "links" = none := by
    rw [lookup_cons_ne "links" "data" (by decide)]
    rfl
  have hl4 : ([("data", ResultValue.one (WireValue.bytes (V2.PBData.encode b)))] :
      List (String × ResultValue)).lookup "data" =
      some (.one (.bytes (V2.PBData.encode b))) := lookup_cons_eq _ _ _
  unfold V2.PBNode.parse
  simp only [hnode, hl3, hl4]
  exact hdata
